import Mathlib

/-!
Verification development for the SPARC single-cell preprocessing core
(`sparc-core` crate).  The Rust data structures and algorithms are embedded
shallowly:

* Rust `String` sequences (barcodes, UMIs, gene names) are `List Char`;
* `AHashMap` / `AHashSet` are association lists / duplicate-free lists kept
  in insertion order (hash iteration order is unspecified in the source, so
  insertion order is one admissible refinement of it);
* `u32` arithmetic is `Nat` reduced modulo `2^32` at each write, matching
  release-mode wrapping semantics;
* file and I/O boundaries are replaced by the already-decoded values they
  deliver (a whitelist file becomes its list of lines).
-/

namespace Sparc

/-- Rust `String` / `&str` sequence data, as its list of characters. -/
abbrev Seq := List Char

/-- Modulus of Rust `u32` arithmetic. -/
def U32 : Nat := 2 ^ 32

/-! ### Association-list model of `AHashMap` -/

/-- Lookup modelling `AHashMap::get`: first binding of key `k`, if any. -/
def alookup {κ ν : Type} [DecidableEq κ] (k : κ) : List (κ × ν) → Option ν
  | [] => none
  | p :: rest => if p.1 = k then some p.2 else alookup k rest

/-- Update modelling `AHashMap::entry(k).or_insert(v₀)` followed by an in-place
update `f`: update the binding of `k` by `f` if present, otherwise append
`(k, f v₀)`. -/
def upsert {κ ν : Type} [DecidableEq κ] (k : κ) (f : ν → ν) (v₀ : ν ) :
    List (κ × ν) → List (κ × ν)
  | [] => [(k, f v₀)]
  | p :: rest => if p.1 = k then (p.1, f p.2) :: rest else p :: upsert k f v₀ rest

/-- Insertion modelling `AHashSet::insert`: append when absent. -/
def sinsert (l : List Seq) (x : Seq) : List Seq :=
  if x ∈ l then l else l ++ [x]

/-- The distinct elements of a list in order of first occurrence. -/
def firstOccurrences (l : List Seq) : List Seq :=
  l.foldl sinsert []

/-- Key/index pairs `(l[0],n), (l[1],n+1), …` used to mirror the
`label → index` hash maps of `GeneCounter`. -/
def enumIdxFrom {α : Type} (n : Nat) : List α → List (α × Nat)
  | [] => []
  | a :: l => (a, n) :: enumIdxFrom (n + 1) l

/-- Key/index pairs of a label vector, starting at index 0. -/
def enumIdx {α : Type} (l : List α) : List (α × Nat) :=
  enumIdxFrom 0 l

/-! ### `CountMatrix` (src/crates/sparc-core/src/count/matrix.rs) -/

/-- Sparse count matrix in COO format (struct `CountMatrix`). -/
structure CountMatrix where
  barcodes : List Seq
  genes : List Seq
  rows : List Nat
  cols : List Nat
  values : List Nat
  n_rows : Nat
  n_cols : Nat
deriving Repr, DecidableEq

/-- Rust `CountMatrix::counts_per_cell`: fold `counts[c] += values[i]` over a zero
vector of length `n_cols`.  The `u64` accumulators are modelled as `Nat`
(each value is a `u32`, so a `u64` accumulator cannot overflow for any
realizable matrix). -/
def CountMatrix.counts_per_cell (m : CountMatrix) : List Nat :=
  (m.cols.zip m.values).foldl
    (fun acc cv => acc.set cv.1 (acc.getD cv.1 0 + cv.2))
    (List.replicate m.n_cols 0)

/-- Rust `CountMatrix::counts_per_gene`: same accumulation grouped by row. -/
def CountMatrix.counts_per_gene (m : CountMatrix) : List Nat :=
  (m.rows.zip m.values).foldl
    (fun acc rv => acc.set rv.1 (acc.getD rv.1 0 + rv.2))
    (List.replicate m.n_rows 0)

/-- Rust `CountMatrix::from_dense`: push a `(i, j, val)` triple for every strictly
positive entry, in row-major order. -/
def CountMatrix.from_dense (barcodes genes : List Seq) (data : List (List Nat)) :
    CountMatrix :=
  let triples := (data.enum.map (fun p =>
    p.2.enum.filterMap (fun q =>
      if 0 < q.2 then some (p.1, q.1, q.2) else none))).flatten
  { barcodes := barcodes
    genes := genes
    rows := triples.map (·.1)
    cols := triples.map (·.2.1)
    values := triples.map (·.2.2)
    n_rows := genes.length
    n_cols := barcodes.length }

/-! ### `GeneCounter` (src/crates/sparc-core/src/count/matrix.rs) -/

/-- Streaming builder for the count matrix (struct `GeneCounter`). -/
structure GeneCounter where
  barcode_index : List (Seq × Nat)
  gene_index : List (Seq × Nat)
  counts : List ((Nat × Nat) × Nat)
  barcodes : List Seq
  genes : List Seq
deriving Repr, DecidableEq

/-- Rust `GeneCounter::new`. -/
def GeneCounter.new : GeneCounter :=
  { barcode_index := [], gene_index := [], counts := [], barcodes := [], genes := [] }

/-- Rust `GeneCounter::add_count`: look each label up, assigning the next free
index (and appending the label) on first occurrence, then bump the
`(gene_idx, cell_idx)` accumulator by `count` with `u32` wrapping. -/
def GeneCounter.add_count (gc : GeneCounter) (barcode gene : Seq) (count : Nat) :
    GeneCounter :=
  let cell := match alookup barcode gc.barcode_index with
    | some i => (i, gc.barcode_index, gc.barcodes)
    | none => (gc.barcodes.length,
               gc.barcode_index ++ [(barcode, gc.barcodes.length)],
               gc.barcodes ++ [barcode])
  let gene' := match alookup gene gc.gene_index with
    | some i => (i, gc.gene_index, gc.genes)
    | none => (gc.genes.length,
               gc.gene_index ++ [(gene, gc.genes.length)],
               gc.genes ++ [gene])
  { barcode_index := cell.2.1
    gene_index := gene'.2.1
    barcodes := cell.2.2
    genes := gene'.2.2
    counts := upsert (gene'.1, cell.1) (fun v => (v + count) % U32) 0 gc.counts }

/-- Rust `GeneCounter::increment`. -/
def GeneCounter.increment (gc : GeneCounter) (barcode gene : Seq) : GeneCounter :=
  gc.add_count barcode gene 1

/-- Rust `GeneCounter::build`: drain the accumulator into the three parallel
arrays (our map model drains in insertion order, one admissible hash
iteration order). -/
def GeneCounter.build (gc : GeneCounter) : CountMatrix :=
  { barcodes := gc.barcodes
    genes := gc.genes
    rows := gc.counts.map (fun e => e.1.1)
    cols := gc.counts.map (fun e => e.1.2)
    values := gc.counts.map (fun e => e.2)
    n_rows := gc.genes.length
    n_cols := gc.barcodes.length }

/-- One recorded `add_count barcode gene count` invocation. -/
abbrev CountCall := Seq × Seq × Nat

/-- Replay one recorded call. -/
def stepCall (gc : GeneCounter) (c : CountCall) : GeneCounter :=
  gc.add_count c.1 c.2.1 c.2.2

/-- Replay a sequence of `add_count` calls on a fresh `GeneCounter`. -/
def runCalls (calls : List CountCall) : GeneCounter :=
  calls.foldl stepCall GeneCounter.new

/-- Sum of the stored values of a count accumulator. -/
def sumVals {κ : Type} (l : List (κ × Nat)) : Nat :=
  (l.map (·.2)).sum

/-- Structural invariant of the counter: index maps mirror the label vectors,
accumulator keys are distinct and in range. -/
def GCInv (gc : GeneCounter) : Prop :=
  gc.barcode_index = enumIdx gc.barcodes ∧
  gc.gene_index = enumIdx gc.genes ∧
  (gc.counts.map (·.1)).Nodup ∧
  ∀ e ∈ gc.counts, e.1.1 < gc.genes.length ∧ e.1.2 < gc.barcodes.length

/-! ### UMI deduplication (src/crates/sparc-core/src/umi/mod.rs, dedup.rs) -/

/-- A UMI with its read count (struct `Umi`). -/
structure Umi where
  sequence : Seq
  count : Nat
deriving Repr, DecidableEq

/-- Rust `Umi::with_count`. -/
def Umi.with_count (sequence : Seq) (count : Nat) : Umi :=
  { sequence := sequence, count := count }

/-- A UMI group after deduplication (struct `UmiGroup`). -/
structure UmiGroup where
  representative : Seq
  members : List Umi
  total_count : Nat
deriving Repr, DecidableEq

/-- Rust `UmiGroup::new`. -/
def UmiGroup.new (representative : Seq) : UmiGroup :=
  { representative := representative, members := [], total_count := 0 }

/-- Rust `UmiGroup::add_member`: `total_count += umi.count` (`u32`, wrapping)
then push the member. -/
def UmiGroup.add_member (g : UmiGroup) (umi : Umi) : UmiGroup :=
  { g with total_count := (g.total_count + umi.count) % U32,
           members := g.members ++ [umi] }

/-- Hamming distance as in `UmiGraph::hamming_distance` and
`BarcodeCorrector::hamming_distance`: `u32::MAX` for unequal lengths,
otherwise the number of differing positions. -/
def hamming_distance (a b : Seq) : Nat :=
  if a.length ≠ b.length then U32 - 1
  else ((a.zip b).filter (fun p => p.1 ≠ p.2)).length

/-- UMI graph: node weights and adjacency lists (struct `UmiGraph`). -/
structure UmiGraph where
  nodes : List (Seq × Nat)
  edges : List (Seq × List Seq)
deriving Repr, DecidableEq

/-- Rust `UmiGraph::new`. -/
def UmiGraph.new : UmiGraph :=
  { nodes := [], edges := [] }

/-- Rust `UmiGraph::add_umi`: `nodes.entry(umi).or_insert(0) += count`
(`u32`, wrapping). -/
def UmiGraph.add_umi (g : UmiGraph) (umi : Seq) (count : Nat) : UmiGraph :=
  { g with nodes := upsert umi (fun v => (v + count) % U32) 0 g.nodes }

/-- Ordered pairs `(l[i], l[j])` with `i < j`, mirroring the nested
`for i … for j in (i+1)…` loops of `UmiGraph::build_edges`. -/
def orderedPairs {α : Type} : List α → List (α × α)
  | [] => []
  | x :: rest => rest.map (fun y => (x, y)) ++ orderedPairs rest

/-- Rust `UmiGraph::build_edges`: connect every pair of distinct node keys
within `max_distance`, pushing each endpoint onto the other's adjacency
list. -/
def UmiGraph.build_edges (g : UmiGraph) (max_distance : Nat) : UmiGraph :=
  let umis := g.nodes.map (·.1)
  let newEdges := (orderedPairs umis).foldl
    (fun ed p =>
      if hamming_distance p.1 p.2 ≤ max_distance then
        upsert p.2 (fun l => l ++ [p.1]) []
          (upsert p.1 (fun l => l ++ [p.2]) [] ed)
      else ed)
    g.edges
  { g with edges := newEdges }

/-- Rust `UmiGraph::get_count`: `nodes.get(umi).unwrap_or(0)`. -/
def UmiGraph.get_count (g : UmiGraph) (umi : Seq) : Nat :=
  (alookup umi g.nodes).getD 0

/-- Work bound for the depth-first search of
`UmiGraph::connected_components`: unvisited edge keys weighted by the total
adjacency size, plus the stack height.  Every loop iteration strictly
decreases it, so it bounds the number of iterations. -/
def dfsMeasure (g : UmiGraph) (visited stack : List Seq) : Nat :=
  ((g.edges.map (·.1)).dedup.filter (fun x => decide (x ∉ visited))).length *
    ((g.edges.map (fun e => e.2.length)).sum + 2) + stack.length

/-- The `while let Some(current) = stack.pop()` loop of
`UmiGraph::connected_components`: pop; skip if already visited; otherwise
mark visited, emit into the component, and push unvisited neighbors.  The
returned pair is the final visited set and the component (in emission
order).  The explicit `fuel` only bounds the iteration count; callers pass
`dfsMeasure + 1`, which suffices (`dfsMeasure` strictly decreases each
iteration), so the fuel is never exhausted and the function agrees with the
unbounded Rust loop. -/
def dfsAux (g : UmiGraph) : Nat → List Seq → List Seq → List Seq × List Seq
  | 0, visited, _ => (visited, [])
  | fuel + 1, visited, stack =>
    match stack with
    | [] => (visited, [])
    | current :: stack' =>
      if current ∈ visited then dfsAux g fuel visited stack'
      else
        let visited' := visited ++ [current]
        let neighbors := (alookup current g.edges).getD []
        let stack'' := neighbors.foldl
          (fun st n => if n ∈ visited' then st else n :: st) stack'
        let r := dfsAux g fuel visited' stack''
        (r.1, current :: r.2)

/-- Rust `UmiGraph::connected_components`: iterate node keys in order and
run the stack DFS from every not-yet-visited key. -/
def UmiGraph.connected_components (g : UmiGraph) : List (List Seq) :=
  ((g.nodes.map (·.1)).foldl
    (fun acc umi =>
      if umi ∈ acc.1 then acc
      else
        let r := dfsAux g (dfsMeasure g acc.1 [umi] + 1) acc.1 [umi]
        (r.1, acc.2 ++ [r.2]))
    ([], [])).2

/-- Stable insertion of `a` into `l`: `a` goes before the first element it
compares `le` to, so equal elements keep their original relative order. -/
def insertSorted {α : Type} (le : α → α → Bool) (a : α) : List α → List α
  | [] => [a]
  | b :: l => if le a b then a :: b :: l else b :: insertSorted le a l

/-- Stable insertion sort, modelling Rust `slice::sort_by` (any stable sort
produces the same list for a total preorder comparator). -/
def insertionSortBy {α : Type} (le : α → α → Bool) : List α → List α
  | [] => []
  | a :: l => insertSorted le a (insertionSortBy le l)

/-- The UMI deduplicator (struct `UmiDeduplicator`). -/
structure UmiDeduplicator where
  max_distance : Nat
deriving Repr, DecidableEq

/-- Rust `UmiDeduplicator::deduplicate`: build the graph, take connected
components, and in each component sort members by count descending (stable)
and take the head as representative. -/
def UmiDeduplicator.deduplicate (d : UmiDeduplicator) (umis : List Umi) :
    List UmiGroup :=
  if umis.isEmpty then []
  else
    let graph := umis.foldl (fun g u => g.add_umi u.sequence u.count) UmiGraph.new
    let graph := graph.build_edges d.max_distance
    let components := graph.connected_components
    components.map (fun component =>
      let group_umis := component.map (fun s => Umi.with_count s (graph.get_count s))
      let sorted := insertionSortBy (fun a b => decide (b.count ≤ a.count)) group_umis
      let rep := (sorted.headD (Umi.with_count [] 0)).sequence
      sorted.foldl UmiGroup.add_member (UmiGroup.new rep))

/-- Rust `UmiDeduplicator::deduplicate_exact`: accumulate counts per exact
sequence and emit one singleton group per distinct sequence. -/
def UmiDeduplicator.deduplicate_exact (d : UmiDeduplicator) (umis : List Umi) :
    List UmiGroup :=
  let umi_counts := umis.foldl
    (fun m u => upsert u.sequence (fun v => (v + u.count) % U32) 0 m) []
  umi_counts.map (fun p =>
    (UmiGroup.new p.1).add_member (Umi.with_count p.1 p.2))

/-- Spec-side lexicographic strict order on sequences (used only to state
the tie-break claim). -/
def seqLt : Seq → Seq → Bool
  | [], [] => false
  | [], _ :: _ => true
  | _ :: _, [] => false
  | a :: as, b :: bs => if a < b then true else if b < a then false else seqLt as bs

/-- Total input count attributed to one exact sequence. -/
def sumCountsFor (umis : List Umi) (s : Seq) : Nat :=
  ((umis.filter (fun u => u.sequence = s)).map (·.count)).sum

/-- The per-sequence count accumulator shared by `deduplicate` (as the graph
node map) and `deduplicate_exact` (as `umi_counts`). -/
def accumCounts (umis : List Umi) : List (Seq × Nat) :=
  umis.foldl (fun m u => upsert u.sequence (fun v => (v + u.count) % U32) 0 m) []

/-- The graph `deduplicate` actually clusters on: node counts accumulated
from the input, edges built at the configured distance. -/
def dedupGraph (d : UmiDeduplicator) (umis : List Umi) : UmiGraph :=
  (umis.foldl (fun g u => g.add_umi u.sequence u.count)
    UmiGraph.new).build_edges d.max_distance

/-- The group `deduplicate` emits for one connected component. -/
def mkGroup (g : UmiGraph) (component : List Seq) : UmiGroup :=
  let group_umis := component.map (fun s => Umi.with_count s (g.get_count s))
  let sorted := insertionSortBy (fun a b => decide (b.count ≤ a.count)) group_umis
  let rep := (sorted.headD (Umi.with_count [] 0)).sequence
  sorted.foldl UmiGroup.add_member (UmiGroup.new rep)

/-! ### Barcode whitelist (src/crates/sparc-core/src/barcode/whitelist.rs) -/

/-- Result of a barcode lookup (enum `BarcodeMatch`). -/
inductive BarcodeMatch where
  | Exact (bc : Seq)
  | Corrected (observed canonical : Seq) (distance : Nat)
  | NoMatch (bc : Seq)
deriving Repr, DecidableEq

/-- Error of whitelist construction (variant `Error::Barcode` with the
expected and observed lengths from the format string). -/
inductive WlError where
  | inconsistentLength (expected got : Nat)
deriving Repr, DecidableEq

/-- Whitelist of reference barcodes (struct `Whitelist`); the `AHashSet` is
a duplicate-free list in insertion order. -/
structure Whitelist where
  barcodes : List Seq
  barcode_len : Nat
deriving Repr, DecidableEq

/-- Unicode `White_Space` code points, as tested by Rust `char::is_whitespace`
inside `str::trim`. -/
def rustIsWhitespace (c : Char) : Bool :=
  [0x09, 0x0A, 0x0B, 0x0C, 0x0D, 0x20, 0x85, 0xA0, 0x1680,
   0x2000, 0x2001, 0x2002, 0x2003, 0x2004, 0x2005, 0x2006, 0x2007, 0x2008,
   0x2009, 0x200A, 0x2028, 0x2029, 0x202F, 0x205F, 0x3000].contains c.val.toNat

/-- Rust `str::trim`: drop whitespace from both ends. -/
def rustTrim (s : Seq) : Seq :=
  ((s.dropWhile rustIsWhitespace).reverse.dropWhile rustIsWhitespace).reverse

/-- Loop body of `Whitelist::from_file`, over the already-decoded lines
(file I/O abstracted away): trim, skip blank and `#` lines, set the length
from the first accepted line, fail on a mismatch, insert into the set. -/
def fromLinesAux : List Seq → List Seq → Nat → Except WlError Whitelist
  | [], barcodes, barcode_len => .ok ⟨barcodes, barcode_len⟩
  | line :: rest, barcodes, barcode_len =>
    let barcode := rustTrim line
    if barcode.isEmpty = true ∨ barcode.head? = some '#' then
      fromLinesAux rest barcodes barcode_len
    else if barcode_len = 0 then
      fromLinesAux rest (sinsert barcodes barcode) barcode.length
    else if barcode.length ≠ barcode_len then
      .error (.inconsistentLength barcode_len barcode.length)
    else
      fromLinesAux rest (sinsert barcodes barcode) barcode_len

/-- Rust `Whitelist::from_file`, with the file given as its list of lines. -/
def Whitelist.from_lines (lines : List Seq) : Except WlError Whitelist :=
  fromLinesAux lines [] 0

/-- Rust `Whitelist::contains`. -/
def Whitelist.contains (w : Whitelist) (bc : Seq) : Bool :=
  decide (bc ∈ w.barcodes)

/-- The lines `from_file` accepts: trimmed, non-blank, not `#`-comments. -/
def acceptedLines (lines : List Seq) : List Seq :=
  (lines.map rustTrim).filter
    (fun b => decide (¬ (b.isEmpty = true ∨ b.head? = some '#')))

/-! ### Barcode corrector (src/crates/sparc-core/src/barcode/matcher.rs) -/

/-- The base alphabet used to generate one-mismatch variants. -/
def baseChars : List Char := ['A', 'C', 'G', 'T', 'N']

/-- Rust `BarcodeCorrector::build_mismatch_index`: for every whitelist
barcode, every position, and every differing base, push the barcode onto
the entry of the one-mismatch variant. -/
def build_mismatch_index (wl : Whitelist) : List (Seq × List Seq) :=
  wl.barcodes.foldl
    (fun index barcode =>
      (List.range barcode.length).foldl
        (fun index i =>
          baseChars.foldl
            (fun index base =>
              if barcode.getD i ' ' ≠ base then
                upsert (barcode.set i base) (fun l => l ++ [barcode]) [] index
              else index)
            index)
        index)
    []

/-- Rust `BarcodeCorrector` (whitelist, max distance, one-mismatch index). -/
structure BarcodeCorrector where
  whitelist : Whitelist
  max_distance : Nat
  mismatch_index : List (Seq × List Seq)
deriving Repr, DecidableEq

/-- Rust `BarcodeCorrector::new`: the index is built only when
`max_distance >= 1`. -/
def BarcodeCorrector.new (whitelist : Whitelist) (max_distance : Nat) :
    BarcodeCorrector :=
  { whitelist := whitelist
    max_distance := max_distance
    mismatch_index :=
      if 1 ≤ max_distance then build_mismatch_index whitelist else [] }

/-- One step of the brute-force scan in `match_barcode` (`d > 1` path):
track the strict minimum and the ambiguity flag. -/
def bruteStep (dmax : Nat) (barcode : Seq)
    (acc : Option (Seq × Nat) × Bool) (wl_barcode : Seq) :
    Option (Seq × Nat) × Bool :=
  let dist := hamming_distance barcode wl_barcode
  if dist ≤ dmax then
    match acc.1 with
    | none => (some (wl_barcode, dist), acc.2)
    | some (_, best_dist) =>
      if dist < best_dist then (some (wl_barcode, dist), false)
      else if dist = best_dist then (acc.1, true)
      else acc
  else acc

/-- Rust `BarcodeCorrector::match_barcode`: exact hit, then the
one-mismatch index, then (for `max_distance > 1`) the brute-force scan. -/
def BarcodeCorrector.match_barcode (c : BarcodeCorrector) (barcode : Seq) :
    BarcodeMatch :=
  if barcode ∈ c.whitelist.barcodes then .Exact barcode
  else if c.max_distance = 0 then .NoMatch barcode
  else
    match alookup barcode c.mismatch_index with
    | some candidates =>
      if candidates.length = 1 then
        .Corrected barcode (candidates.headD []) 1
      else .NoMatch barcode
    | none =>
      if 1 < c.max_distance then
        let result := c.whitelist.barcodes.foldl
          (bruteStep c.max_distance barcode) (none, false)
        match result.1 with
        | some (corrected, dist) =>
          if result.2 = false then .Corrected barcode corrected dist
          else .NoMatch barcode
        | none => .NoMatch barcode
      else .NoMatch barcode

/-- A multimap push `index.entry(k).or_default().push(v)`, iterated over a
list of key/value pairs; used to restate the nested loops of
`build_mismatch_index` as one flat pass. -/
def pushAll (ix : List (Seq × List Seq)) (ps : List (Seq × Seq)) :
    List (Seq × List Seq) :=
  ps.foldl (fun ix p => upsert p.1 (fun l => l ++ [p.2]) [] ix) ix

/-- The values pushed for key `k`, in push order. -/
def collect (k : Seq) (ps : List (Seq × Seq)) : List Seq :=
  (ps.filter (fun p => decide (p.1 = k))).map Prod.snd

/-- The `(variant, barcode)` pushes produced by the two inner loops of
`build_mismatch_index` for one whitelist barcode. -/
def variantPushes (barcode : Seq) : List (Seq × Seq) :=
  (List.range barcode.length).flatMap (fun i =>
    baseChars.filterMap (fun base =>
      if barcode.getD i ' ' ≠ base then some (barcode.set i base, barcode)
      else none))

/-- All `(variant, barcode)` pushes of `build_mismatch_index`, in loop order. -/
def allPushes (wl : Whitelist) : List (Seq × Seq) :=
  wl.barcodes.flatMap variantPushes

/-- The barcode `w` generates `bc` as a one-mismatch variant: `bc` is `w`
with one position overwritten by a different base from `baseChars`. -/
def generates (w bc : Seq) : Prop :=
  ∃ i, i < w.length ∧ ∃ b, b ∈ baseChars ∧ w.getD i ' ' ≠ b ∧ bc = w.set i b

/-! ### Protocol extraction (src/crates/sparc-core/src/protocols) -/

/-- Read-structure descriptor (struct `ReadStructure`). -/
structure ReadStructure where
  barcode_start : Nat
  barcode_len : Nat
  umi_start : Nat
  umi_len : Nat
  cdna_start : Nat
deriving Repr, DecidableEq

/-- Rust `ReadStructure::new`. -/
def ReadStructure.new (barcode_start barcode_len umi_start umi_len cdna_start : Nat) :
    ReadStructure :=
  ⟨barcode_start, barcode_len, umi_start, umi_len, cdna_start⟩

/-- Rust `ReadStructure::tenx_3prime_v3` / `TenX3Prime::v3`. -/
def ReadStructure.tenx_3prime_v3 : ReadStructure := ⟨0, 16, 16, 12, 0⟩

/-- Rust `TenX3Prime::v2` (shorter UMI). -/
def ReadStructure.tenx_3prime_v2 : ReadStructure := ⟨0, 16, 16, 10, 0⟩

/-- Extracted read components (struct `ReadComponents`), bytes as `Nat`. -/
structure ReadComponents where
  barcode : List Nat
  umi : List Nat
  cdna : List Nat
  barcode_qual : List Nat
  umi_qual : List Nat
  cdna_qual : List Nat
deriving Repr, DecidableEq

/-- Structural error (variant `Error::Protocol` with the data of its
format string: observed and required lengths). -/
inductive RsError where
  | protocol (len required : Nat)
deriving Repr, DecidableEq

/-- Rust slice indexing `&l[s..e]`: defined when `s ≤ e ≤ l.length`,
otherwise a panic, modelled as `none`. -/
def rustSlice (l : List Nat) (s e : Nat) : Option (List Nat) :=
  if s ≤ e ∧ e ≤ l.length then some ((l.drop s).take (e - s)) else none

/-- Rust `TenX3Prime::extract_r1` for an arbitrary read structure: length
check against `barcode_start + barcode_len + umi_len`, then four slices
(`cdna` stays empty — it lives on R2).  The outer `Option` is `none` when a
slice panics. -/
def extract_r1 (rs : ReadStructure) (seq qual : List Nat) :
    Option (Except RsError ReadComponents) :=
  let min_len := rs.barcode_start + rs.barcode_len + rs.umi_len
  if seq.length < min_len then
    some (.error (.protocol seq.length min_len))
  else
    let barcode_end := rs.barcode_start + rs.barcode_len
    let umi_end := rs.umi_start + rs.umi_len
    match rustSlice seq rs.barcode_start barcode_end,
        rustSlice seq rs.umi_start umi_end,
        rustSlice qual rs.barcode_start barcode_end,
        rustSlice qual rs.umi_start umi_end with
    | some b, some u, some bq, some uq =>
      some (.ok { barcode := b, umi := u, cdna := [],
                  barcode_qual := bq, umi_qual := uq, cdna_qual := [] })
    | _, _, _, _ => none

/-! ### QC metrics (src/crates/sparc-core/src/qc/metrics.rs) -/

/-- The fields of `QcMetrics` touched by `update_from_cells`.  The medians
are the selected `u64` values; the trailing `as f64` casts (and the f64
mean fields) are not modelled. -/
structure QcMetrics where
  num_cells : Nat
  median_reads_per_cell : Nat
  median_genes_per_cell : Nat
  median_umi_per_cell : Nat
deriving Repr, DecidableEq

/-- Rust `QcMetrics::new` / `default` for the modelled fields. -/
def QcMetrics.new : QcMetrics := ⟨0, 0, 0, 0⟩

/-- Rust `QcMetrics::update_from_cells`: set `num_cells`, and for each
non-empty vector sort it ascending and take the element at index `len / 2`. -/
def QcMetrics.update_from_cells (m : QcMetrics)
    (reads_per_cell genes_per_cell umis_per_cell : List Nat) : QcMetrics :=
  let m := { m with num_cells := reads_per_cell.length }
  let m := if reads_per_cell.isEmpty = true then m
    else
      let sorted := insertionSortBy (fun a b => decide (a ≤ b)) reads_per_cell
      { m with median_reads_per_cell := sorted.getD (sorted.length / 2) 0 }
  let m := if genes_per_cell.isEmpty = true then m
    else
      let sorted := insertionSortBy (fun a b => decide (a ≤ b)) genes_per_cell
      { m with median_genes_per_cell := sorted.getD (sorted.length / 2) 0 }
  if umis_per_cell.isEmpty = true then m
  else
    let sorted := insertionSortBy (fun a b => decide (a ≤ b)) umis_per_cell
    { m with median_umi_per_cell := sorted.getD (sorted.length / 2) 0 }

/-! ### Basic lemmas about the map / set models -/

theorem alookup_enumIdxFrom_none (x : Seq) (n : Nat) (l : List Seq) :
    alookup x (enumIdxFrom n l) = none ↔ x ∉ l := by
  induction l generalizing n with
  | nil => simp [enumIdxFrom, alookup]
  | cons a l ih =>
    by_cases h : a = x
    · simp [enumIdxFrom, alookup, h]
    · simp [enumIdxFrom, alookup, h, ih (n + 1), Ne.symm h]

theorem alookup_enumIdxFrom_some (x : Seq) (l : List Seq) : ∀ (n i : Nat),
    alookup x (enumIdxFrom n l) = some i → x ∈ l ∧ i < n + l.length := by
  induction l with
  | nil => intro n i h; simp [enumIdxFrom, alookup] at h
  | cons a l ih =>
    intro n i h
    by_cases hax : a = x
    · subst hax
      simp [enumIdxFrom, alookup] at h
      refine ⟨by simp, ?_⟩
      simp only [List.length_cons]
      omega
    · simp [enumIdxFrom, alookup, hax] at h
      rcases ih (n + 1) i h with ⟨hm, hi⟩
      refine ⟨List.mem_cons_of_mem _ hm, ?_⟩
      simp only [List.length_cons]
      omega

theorem enumIdxFrom_append (n : Nat) (l : List Seq) (x : Seq) :
    enumIdxFrom n (l ++ [x]) = enumIdxFrom n l ++ [(x, n + l.length)] := by
  induction l generalizing n with
  | nil => simp [enumIdxFrom]
  | cons a l ih =>
    have harith : n + 1 + l.length = n + (l.length + 1) := by omega
    simp only [List.cons_append, enumIdxFrom, List.length_cons, List.append_eq]
    rw [ih (n + 1), harith]

theorem sinsert_of_mem {l : List Seq} {x : Seq} (h : x ∈ l) : sinsert l x = l := by
  simp [sinsert, h]

theorem sinsert_of_not_mem {l : List Seq} {x : Seq} (h : x ∉ l) :
    sinsert l x = l ++ [x] := by
  simp [sinsert, h]

theorem mem_upsert {κ ν : Type} [DecidableEq κ] (k : κ) (f : ν → ν) (v₀ : ν)
    (l : List (κ × ν)) : ∀ e ∈ upsert k f v₀ l, e ∈ l ∨ e.1 = k := by
  induction l with
  | nil =>
    intro e h
    simp only [upsert, List.mem_singleton] at h
    right; simp [h]
  | cons p rest ih =>
    intro e h
    by_cases hp : p.1 = k
    · simp only [upsert, if_pos hp] at h
      rcases List.mem_cons.mp h with h | h
      · right; simp [h, hp]
      · left; exact List.mem_cons_of_mem _ h
    · simp only [upsert, if_neg hp] at h
      rcases List.mem_cons.mp h with h | h
      · left; simp [h]
      · rcases ih e h with h' | h'
        · left; exact List.mem_cons_of_mem _ h'
        · right; exact h'

theorem upsert_map_fst {κ ν : Type} [DecidableEq κ] (k : κ) (f : ν → ν) (v₀ : ν)
    (l : List (κ × ν)) :
    (upsert k f v₀ l).map (·.1) =
      if k ∈ l.map (·.1) then l.map (·.1) else l.map (·.1) ++ [k] := by
  induction l with
  | nil => simp [upsert]
  | cons p rest ih =>
    by_cases hp : p.1 = k
    · simp [upsert, hp]
    · simp only [upsert, if_neg hp, List.map_cons, ih]
      by_cases hk : k ∈ rest.map (·.1)
      · simp [hk, Ne.symm hp]
      · simp [hk, Ne.symm hp]

theorem upsert_nodup {κ ν : Type} [DecidableEq κ] {k : κ} {f : ν → ν} {v₀ : ν}
    {l : List (κ × ν)} (h : (l.map (·.1)).Nodup) :
    ((upsert k f v₀ l).map (·.1)).Nodup := by
  rw [upsert_map_fst]
  by_cases hk : k ∈ l.map (·.1)
  · simpa [hk]
  · simpa [hk] using List.Nodup.append h (List.nodup_singleton k) (by simpa using hk)

theorem sumVals_cons {κ : Type} (p : κ × Nat) (l : List (κ × Nat)) :
    sumVals (p :: l) = p.2 + sumVals l := by
  simp [sumVals]

theorem sum_upsert {κ : Type} [DecidableEq κ] (k : κ) (c : Nat) (l : List (κ × Nat))
    (h : sumVals l + c < U32) :
    sumVals (upsert k (fun v => (v + c) % U32) 0 l) = sumVals l + c := by
  induction l with
  | nil =>
    simp only [upsert, sumVals, List.map_cons, List.map_nil, List.sum_cons,
      List.sum_nil, Nat.zero_add, Nat.add_zero]
    exact Nat.mod_eq_of_lt (by simpa [sumVals] using h)
  | cons p rest ih =>
    by_cases hp : p.1 = k
    · simp only [upsert, if_pos hp, sumVals_cons]
      rw [sumVals_cons] at h
      rw [Nat.mod_eq_of_lt (by omega)]
      omega
    · simp only [upsert, if_neg hp, sumVals_cons]
      rw [sumVals_cons] at h
      rw [ih (by omega)]
      omega

theorem pos_upsert {κ : Type} [DecidableEq κ] (k : κ) (c : Nat) :
    ∀ (l : List (κ × Nat)), 1 ≤ c → sumVals l + c < U32 →
    (∀ e ∈ l, 1 ≤ e.2) →
    ∀ e ∈ upsert k (fun v => (v + c) % U32) 0 l, 1 ≤ e.2 := by
  intro l
  induction l with
  | nil =>
    intro hc hb _ e he
    simp only [upsert, List.mem_singleton] at he
    subst he
    have hcu : c < U32 := by simpa [sumVals] using hb
    simp only [Nat.zero_add]
    rw [Nat.mod_eq_of_lt hcu]
    exact hc
  | cons p rest ih =>
    intro hc hb hl e he
    rw [sumVals_cons] at hb
    by_cases hp : p.1 = k
    · simp only [upsert, if_pos hp] at he
      rcases List.mem_cons.mp he with he | he
      · have hpv : 1 ≤ p.2 := (hl p (by simp))
        have : (p.2 + c) % U32 = p.2 + c := Nat.mod_eq_of_lt (by omega)
        simp only [he, this]
        omega
      · exact hl e (List.mem_cons_of_mem _ he)
    · simp only [upsert, if_neg hp] at he
      rcases List.mem_cons.mp he with he | he
      · simp only [he]; exact hl p (by simp)
      · exact ih hc (by omega) (fun e' he' => hl e' (List.mem_cons_of_mem _ he')) e he

/-! ### Invariants of `GeneCounter` -/

theorem add_count_spec (gc : GeneCounter) (b g : Seq) (c : Nat)
    (hb : gc.barcode_index = enumIdx gc.barcodes)
    (hg : gc.gene_index = enumIdx gc.genes) :
    (gc.add_count b g c).barcodes = sinsert gc.barcodes b ∧
    (gc.add_count b g c).genes = sinsert gc.genes g ∧
    (gc.add_count b g c).barcode_index = enumIdx ((gc.add_count b g c).barcodes) ∧
    (gc.add_count b g c).gene_index = enumIdx ((gc.add_count b g c).genes) ∧
    gc.genes.length ≤ (gc.add_count b g c).genes.length ∧
    gc.barcodes.length ≤ (gc.add_count b g c).barcodes.length ∧
    ∃ gi ci, gi < (gc.add_count b g c).genes.length ∧
      ci < (gc.add_count b g c).barcodes.length ∧
      (gc.add_count b g c).counts = upsert (gi, ci) (fun v => (v + c) % U32) 0 gc.counts := by
  rcases hab : alookup b gc.barcode_index with _ | ci <;>
    rcases hag : alookup g gc.gene_index with _ | gi
  · have hbm : b ∉ gc.barcodes := by
      rw [hb] at hab; exact (alookup_enumIdxFrom_none b 0 gc.barcodes).mp hab
    have hgm : g ∉ gc.genes := by
      rw [hg] at hag; exact (alookup_enumIdxFrom_none g 0 gc.genes).mp hag
    simp only [GeneCounter.add_count, hab, hag]
    rw [sinsert_of_not_mem hbm, sinsert_of_not_mem hgm]
    refine ⟨rfl, rfl, ?_, ?_, by simp, by simp, gc.genes.length, gc.barcodes.length,
      by simp, by simp, rfl⟩
    · rw [hb, enumIdx, enumIdx, enumIdxFrom_append]; simp
    · rw [hg, enumIdx, enumIdx, enumIdxFrom_append]; simp
  · have hbm : b ∉ gc.barcodes := by
      rw [hb] at hab; exact (alookup_enumIdxFrom_none b 0 gc.barcodes).mp hab
    have hgm := alookup_enumIdxFrom_some g gc.genes 0 gi (by rw [hg, enumIdx] at hag; exact hag)
    simp only [GeneCounter.add_count, hab, hag]
    rw [sinsert_of_not_mem hbm, sinsert_of_mem hgm.1]
    refine ⟨rfl, rfl, ?_, hg, by simp, by simp, gi, gc.barcodes.length,
      by have := hgm.2; omega, by simp, rfl⟩
    rw [hb, enumIdx, enumIdx, enumIdxFrom_append]; simp
  · have hbm := alookup_enumIdxFrom_some b gc.barcodes 0 ci (by rw [hb, enumIdx] at hab; exact hab)
    have hgm : g ∉ gc.genes := by
      rw [hg] at hag; exact (alookup_enumIdxFrom_none g 0 gc.genes).mp hag
    simp only [GeneCounter.add_count, hab, hag]
    rw [sinsert_of_mem hbm.1, sinsert_of_not_mem hgm]
    refine ⟨rfl, rfl, hb, ?_, by simp, by simp, gc.genes.length, ci,
      by simp, by have := hbm.2; omega, rfl⟩
    rw [hg, enumIdx, enumIdx, enumIdxFrom_append]; simp
  · have hbm := alookup_enumIdxFrom_some b gc.barcodes 0 ci (by rw [hb, enumIdx] at hab; exact hab)
    have hgm := alookup_enumIdxFrom_some g gc.genes 0 gi (by rw [hg, enumIdx] at hag; exact hag)
    simp only [GeneCounter.add_count, hab, hag]
    rw [sinsert_of_mem hbm.1, sinsert_of_mem hgm.1]
    exact ⟨rfl, rfl, hb, hg, le_refl _, le_refl _, gi, ci,
      by have := hgm.2; omega, by have := hbm.2; omega, rfl⟩

theorem GCInv.new : GCInv GeneCounter.new := by
  refine ⟨rfl, rfl, by simp [GeneCounter.new], ?_⟩
  intro e he; simp [GeneCounter.new] at he

theorem GCInv.add_count {gc : GeneCounter} (h : GCInv gc) (b g : Seq) (c : Nat) :
    GCInv (gc.add_count b g c) ∧
    (gc.add_count b g c).barcodes = sinsert gc.barcodes b ∧
    (gc.add_count b g c).genes = sinsert gc.genes g := by
  obtain ⟨hb, hg, hnd, hrange⟩ := h
  obtain ⟨hbs, hgs, hbi, hgi, hgl, hbl, gi, ci, hgilt, hcilt, hcnt⟩ :=
    add_count_spec gc b g c hb hg
  refine ⟨⟨hbi, hgi, ?_, ?_⟩, hbs, hgs⟩
  · rw [hcnt]; exact upsert_nodup hnd
  · intro e he
    rw [hcnt] at he
    rcases mem_upsert _ _ _ _ e he with hm | hk
    · obtain ⟨h1, h2⟩ := hrange e hm
      exact ⟨by omega, by omega⟩
    · rw [hk]; exact ⟨hgilt, hcilt⟩

theorem foldl_stepCall_inv (calls : List CountCall) : ∀ gc : GeneCounter, GCInv gc →
    GCInv (calls.foldl stepCall gc) ∧
    (calls.foldl stepCall gc).barcodes =
      (calls.map (·.1)).foldl sinsert gc.barcodes ∧
    (calls.foldl stepCall gc).genes =
      (calls.map (·.2.1)).foldl sinsert gc.genes := by
  induction calls with
  | nil => intro gc h; exact ⟨h, rfl, rfl⟩
  | cons cc rest ih =>
    intro gc h
    obtain ⟨h', hbs, hgs⟩ := GCInv.add_count h cc.1 cc.2.1 cc.2.2
    obtain ⟨hfi, hfb, hfg⟩ := ih (gc.add_count cc.1 cc.2.1 cc.2.2) h'
    refine ⟨hfi, ?_, ?_⟩
    · simpa [stepCall, List.foldl_cons, hbs] using hfb
    · simpa [stepCall, List.foldl_cons, hgs] using hfg

theorem runCalls_inv (calls : List CountCall) :
    GCInv (runCalls calls) ∧
    (runCalls calls).barcodes = firstOccurrences (calls.map (·.1)) ∧
    (runCalls calls).genes = firstOccurrences (calls.map (·.2.1)) :=
  foldl_stepCall_inv calls GeneCounter.new GCInv.new

theorem foldl_stepCall_counts (calls : List CountCall) : ∀ gc : GeneCounter,
    GCInv gc →
    (∀ e ∈ gc.counts, 1 ≤ e.2) →
    (∀ cc ∈ calls, 1 ≤ cc.2.2) →
    sumVals gc.counts + (calls.map (·.2.2)).sum < U32 →
    (∀ e ∈ (calls.foldl stepCall gc).counts, 1 ≤ e.2) ∧
    sumVals (calls.foldl stepCall gc).counts ≤
      sumVals gc.counts + (calls.map (·.2.2)).sum := by
  induction calls with
  | nil => intro gc _ hpos _ _; exact ⟨hpos, by simp⟩
  | cons cc rest ih =>
    intro gc hinv hpos hcalls hsum
    have hb := hinv.1
    have hg := hinv.2.1
    obtain ⟨_, _, _, _, _, _, gi, ci, _, _, hcnt⟩ :=
      add_count_spec gc cc.1 cc.2.1 cc.2.2 hb hg
    have hrest : (rest.map (·.2.2)).sum ≥ 0 := Nat.zero_le _
    have hc1 : 1 ≤ cc.2.2 := hcalls cc (by simp)
    have hsum1 : sumVals gc.counts + cc.2.2 < U32 := by
      simp only [List.map_cons, List.sum_cons] at hsum; omega
    have hsumeq : sumVals (gc.add_count cc.1 cc.2.1 cc.2.2).counts =
        sumVals gc.counts + cc.2.2 := by
      rw [hcnt]; exact sum_upsert _ _ _ hsum1
    have hpos' : ∀ e ∈ (gc.add_count cc.1 cc.2.1 cc.2.2).counts, 1 ≤ e.2 := by
      rw [hcnt]; exact pos_upsert _ _ _ hc1 hsum1 hpos
    have hinv' := (GCInv.add_count hinv cc.1 cc.2.1 cc.2.2).1
    have hsum' : sumVals (gc.add_count cc.1 cc.2.1 cc.2.2).counts +
        (rest.map (·.2.2)).sum < U32 := by
      rw [hsumeq]
      simp only [List.map_cons, List.sum_cons] at hsum
      omega
    obtain ⟨hfin, hfs⟩ := ih (gc.add_count cc.1 cc.2.1 cc.2.2) hinv' hpos'
      (fun x hx => hcalls x (List.mem_cons_of_mem _ hx)) hsum'
    refine ⟨by simpa [stepCall, List.foldl_cons] using hfin, ?_⟩
    have : sumVals ((cc :: rest).foldl stepCall gc).counts =
        sumVals (rest.foldl stepCall (gc.add_count cc.1 cc.2.1 cc.2.2)).counts := by
      simp [stepCall, List.foldl_cons]
    rw [this, hsumeq] at *
    simp only [List.map_cons, List.sum_cons]
    omega

/-! ### Sum lemmas for the per-axis reductions -/

theorem sum_set_add (acc : List Nat) (i v : Nat) (h : i < acc.length) :
    (acc.set i (acc.getD i 0 + v)).sum = acc.sum + v := by
  rw [List.sum_set, List.getD_eq_getElem _ _ h, if_pos h]
  have hsplit : (acc.take i).sum + (acc[i] + (acc.drop (i + 1)).sum) = acc.sum := by
    rw [← List.sum_cons, ← List.drop_eq_getElem_cons h, List.sum_take_add_sum_drop]
  omega

theorem foldl_bump_sum (pairs : List (Nat × Nat)) : ∀ acc : List Nat,
    (∀ p ∈ pairs, p.1 < acc.length) →
    (pairs.foldl (fun a p => a.set p.1 (a.getD p.1 0 + p.2)) acc).sum
      = acc.sum + (pairs.map (·.2)).sum := by
  induction pairs with
  | nil => intro acc _; simp
  | cons p rest ih =>
    intro acc hlt
    have hp : p.1 < acc.length := hlt p (by simp)
    have hrest : ∀ q ∈ rest, q.1 < (acc.set p.1 (acc.getD p.1 0 + p.2)).length := by
      intro q hq
      rw [List.length_set]
      exact hlt q (List.mem_cons_of_mem _ hq)
    simp only [List.foldl_cons, List.map_cons, List.sum_cons]
    rw [ih _ hrest, sum_set_add acc p.1 p.2 hp]
    omega

/-! ### Claim theorems for the count matrix -/

/-- C1 (corrected).  Matrix integrity after `GeneCounter::build`, for any
sequence of `add_count` / `increment` calls whose count arguments are all
strictly positive and whose total stays below `2^32` (so that the `u32`
accumulator never wraps): the three parallel arrays have equal length, every
stored value is strictly positive, the `(row, col)` pairs are pairwise
distinct, and every row / column index is below `n_rows` / `n_cols`. -/
theorem c1_matrix_integrity (calls : List CountCall)
    (hpos : ∀ cc ∈ calls, 1 ≤ cc.2.2)
    (hsum : (calls.map (·.2.2)).sum < U32) :
    ((runCalls calls).build.rows.length = (runCalls calls).build.values.length) ∧
    ((runCalls calls).build.cols.length = (runCalls calls).build.values.length) ∧
    (∀ v ∈ (runCalls calls).build.values, 0 < v) ∧
    (((runCalls calls).build.rows.zip (runCalls calls).build.cols).Nodup) ∧
    (∀ r ∈ (runCalls calls).build.rows, r < (runCalls calls).build.n_rows) ∧
    (∀ c ∈ (runCalls calls).build.cols, c < (runCalls calls).build.n_cols) := by
  obtain ⟨⟨_, _, hnd, hrange⟩, _, _⟩ := runCalls_inv calls
  have hcounts := foldl_stepCall_counts calls GeneCounter.new GCInv.new
    (by intro e he; simp [GeneCounter.new] at he) hpos
    (by simpa [sumVals, GeneCounter.new] using hsum)
  refine ⟨by simp [GeneCounter.build], by simp [GeneCounter.build], ?_, ?_, ?_, ?_⟩
  · intro v hv
    simp only [GeneCounter.build, List.mem_map] at hv
    obtain ⟨e, he, rfl⟩ := hv
    exact hcounts.1 e he
  · have hz : ((runCalls calls).build.rows.zip (runCalls calls).build.cols) =
        (runCalls calls).counts.map (fun e => e.1) := by
      simp only [GeneCounter.build, List.zip_map']
    rw [hz]
    exact hnd
  · intro r hr
    simp only [GeneCounter.build, List.mem_map] at hr
    obtain ⟨e, he, rfl⟩ := hr
    exact (hrange e he).1
  · intro c hc
    simp only [GeneCounter.build, List.mem_map] at hc
    obtain ⟨e, he, rfl⟩ := hc
    exact (hrange e he).2

/-- Witness for C1: the scenario-S3 call sequence
`(CELL1,GENE1), (CELL1,GENE1), (CELL1,GENE2), (CELL2,GENE1)` (unit counts)
satisfies both hypotheses and the integrity conclusion. -/
theorem c1_matrix_integrity_witness :
    (∀ cc ∈ [(['C','1'], ['G','1'], 1), (['C','1'], ['G','1'], 1),
             (['C','1'], ['G','2'], 1), (['C','2'], ['G','1'], 1)], 1 ≤ cc.2.2) ∧
    (([(['C','1'], ['G','1'], 1), (['C','1'], ['G','1'], 1),
       (['C','1'], ['G','2'], 1), (['C','2'], ['G','1'], 1)].map
        (fun cc => cc.2.2)).sum < U32) ∧
    (∀ v ∈ (runCalls [(['C','1'], ['G','1'], 1), (['C','1'], ['G','1'], 1),
       (['C','1'], ['G','2'], 1), (['C','2'], ['G','1'], 1)]).build.values, 0 < v) :=
  ⟨by decide, by decide,
   (c1_matrix_integrity
     [(['C','1'], ['G','1'], 1), (['C','1'], ['G','1'], 1),
      (['C','1'], ['G','2'], 1), (['C','2'], ['G','1'], 1)]
     (by decide) (by decide)).2.2.1⟩

/-- Counterexample to C1 as stated: the claim quantifies over every sequence
of `add_count` calls, but a single `add_count(B, G, 0)` call stores a zero
count, and `build` then emits a zero value, contradicting `values[i] > 0`. -/
theorem c1_counterexample :
    (runCalls [([' ', 'B'], [' ', 'G'], 0)]).build.values = [0] ∧
    ¬ (∀ v ∈ (runCalls [([' ', 'B'], [' ', 'G'], 0)]).build.values, 0 < v) := by
  constructor
  · rfl
  · decide

/-- C4 (confirmed).  Labeling discipline of `GeneCounter`: after any call
sequence, the barcode label vector is exactly the list of distinct barcodes
in order of first occurrence, the `barcode → column index` map sends each
barcode to its 0-based position in that vector, and `build` emits the label
vectors unchanged; likewise for genes and row indices. -/
theorem c4_label_first_seen_order (calls : List CountCall) :
    ((runCalls calls).barcodes = firstOccurrences (calls.map (·.1))) ∧
    ((runCalls calls).genes = firstOccurrences (calls.map (·.2.1))) ∧
    ((runCalls calls).barcode_index = enumIdx (firstOccurrences (calls.map (·.1)))) ∧
    ((runCalls calls).gene_index = enumIdx (firstOccurrences (calls.map (·.2.1)))) ∧
    ((runCalls calls).build.barcodes = firstOccurrences (calls.map (·.1))) ∧
    ((runCalls calls).build.genes = firstOccurrences (calls.map (·.2.1))) := by
  obtain ⟨⟨hbi, hgi, _, _⟩, hb, hg⟩ := runCalls_inv calls
  exact ⟨hb, hg, by rw [hbi, hb], by rw [hgi, hg], hb, hg⟩

/-- C5 (confirmed).  For any `CountMatrix` satisfying the data-model
invariants `|rows| = |cols| = |values|` with all row and column indices in
range, the sum over `counts_per_cell()` and the sum over `counts_per_gene()`
both equal the sum of the values array. -/
theorem c5_aggregation_sums (m : CountMatrix)
    (hrv : m.rows.length = m.values.length)
    (hcv : m.cols.length = m.values.length)
    (hr : ∀ r ∈ m.rows, r < m.n_rows)
    (hc : ∀ c ∈ m.cols, c < m.n_cols) :
    m.counts_per_cell.sum = m.values.sum ∧
    m.counts_per_gene.sum = m.values.sum := by
  constructor
  · rw [CountMatrix.counts_per_cell, foldl_bump_sum]
    · rw [List.map_snd_zip _ _ (le_of_eq hcv.symm)]
      simp [List.sum_replicate]
    · intro p hp
      have hm := List.of_mem_zip (a := p.1) (b := p.2) (by simpa using hp)
      simpa [List.length_replicate] using hc p.1 hm.1
  · rw [CountMatrix.counts_per_gene, foldl_bump_sum]
    · rw [List.map_snd_zip _ _ (le_of_eq hrv.symm)]
      simp [List.sum_replicate]
    · intro p hp
      have hm := List.of_mem_zip (a := p.1) (b := p.2) (by simpa using hp)
      simpa [List.length_replicate] using hr p.1 hm.1

/-- Witness for C5: the scenario-S4 dense matrix `[[10,5],[3,8]]` satisfies
the hypotheses, and both reduction sums equal the value sum. -/
theorem c5_aggregation_sums_witness :
    ((CountMatrix.from_dense [['C','1'], ['C','2']] [['G','1'], ['G','2']]
        [[10, 5], [3, 8]]).rows.length =
      (CountMatrix.from_dense [['C','1'], ['C','2']] [['G','1'], ['G','2']]
        [[10, 5], [3, 8]]).values.length) ∧
    ((CountMatrix.from_dense [['C','1'], ['C','2']] [['G','1'], ['G','2']]
        [[10, 5], [3, 8]]).counts_per_cell.sum =
      (CountMatrix.from_dense [['C','1'], ['C','2']] [['G','1'], ['G','2']]
        [[10, 5], [3, 8]]).values.sum) :=
  ⟨by decide,
   (c5_aggregation_sums
     (CountMatrix.from_dense [['C','1'], ['C','2']] [['G','1'], ['G','2']]
       [[10, 5], [3, 8]])
     (by decide) (by decide) (by decide) (by decide)).1⟩

/-! ### Association-list lemmas for the UMI accumulators -/

theorem alookup_upsert_self {κ ν : Type} [DecidableEq κ] (k : κ) (f : ν → ν)
    (v₀ : ν) (l : List (κ × ν)) :
    alookup k (upsert k f v₀ l) = some (f ((alookup k l).getD v₀)) := by
  induction l with
  | nil => simp [upsert, alookup]
  | cons p rest ih =>
    by_cases hp : p.1 = k
    · simp [upsert, alookup, hp]
    · simp [upsert, alookup, hp, ih]

theorem alookup_upsert_other {κ ν : Type} [DecidableEq κ] {k k' : κ} (hne : k' ≠ k)
    (f : ν → ν) (v₀ : ν) (l : List (κ × ν)) :
    alookup k' (upsert k f v₀ l) = alookup k' l := by
  have hkk : ¬ (k = k') := fun h => hne (Eq.symm h)
  induction l with
  | nil => simp [upsert, alookup, hkk]
  | cons p rest ih =>
    by_cases hp : p.1 = k
    · have hpk : ¬ (p.1 = k') := fun h => hkk (hp ▸ h)
      simp [upsert, alookup, hp, hpk, hkk]
    · by_cases hp' : p.1 = k'
      · simp [upsert, alookup, hp, hp', hne]
      · simp [upsert, alookup, hp, hp', ih]

theorem alookup_eq_none_iff {κ ν : Type} [DecidableEq κ] (k : κ) (l : List (κ × ν)) :
    alookup k l = none ↔ k ∉ l.map (·.1) := by
  induction l with
  | nil => simp [alookup]
  | cons p rest ih =>
    by_cases hp : p.1 = k
    · simp [alookup, hp]
    · have hkp : ¬ (k = p.1) := fun h => hp (Eq.symm h)
      simp [alookup, hp, ih, hkp]

theorem alookup_mem {κ ν : Type} [DecidableEq κ] (k : κ) (l : List (κ × ν)) :
    ∀ v, alookup k l = some v → (k, v) ∈ l := by
  induction l with
  | nil => intro v h; simp [alookup] at h
  | cons p rest ih =>
    intro v h
    obtain ⟨pk, pv⟩ := p
    by_cases hp : pk = k
    · simp only [alookup, if_pos hp, Option.some.injEq] at h
      subst hp
      subst h
      exact List.mem_cons_self _ _
    · simp only [alookup, if_neg hp] at h
      exact List.mem_cons_of_mem _ (ih v h)

theorem alookup_self_of_nodup {κ ν : Type} [DecidableEq κ] {l : List (κ × ν)}
    (hnd : (l.map (·.1)).Nodup) : ∀ p ∈ l, alookup p.1 l = some p.2 := by
  induction l with
  | nil => intro p hp; simp at hp
  | cons q rest ih =>
    intro p hp
    simp only [List.map_cons, List.nodup_cons] at hnd
    rcases List.mem_cons.mp hp with rfl | hp'
    · simp [alookup]
    · have hne : ¬ (q.1 = p.1) := by
        intro h
        exact hnd.1 (h ▸ List.mem_map_of_mem (·.1) hp')
      simp only [alookup, if_neg hne]
      exact ih hnd.2 p hp'

theorem upsert_vals {κ ν : Type} [DecidableEq κ] (k : κ) (f : ν → ν) (v₀ : ν)
    (l : List (κ × ν)) :
    ∀ e ∈ upsert k f v₀ l, e ∈ l ∨ e.2 = f v₀ ∨ ∃ e' ∈ l, e.2 = f e'.2 := by
  induction l with
  | nil =>
    intro e he
    simp only [upsert, List.mem_singleton] at he
    right; left; rw [he]
  | cons p rest ih =>
    intro e he
    by_cases hp : p.1 = k
    · simp only [upsert, if_pos hp] at he
      rcases List.mem_cons.mp he with rfl | he'
      · right; right; exact ⟨p, by simp, rfl⟩
      · left; exact List.mem_cons_of_mem _ he'
    · simp only [upsert, if_neg hp] at he
      rcases List.mem_cons.mp he with rfl | he'
      · left; simp
      · rcases ih e he' with h | h | ⟨e', he'', h⟩
        · left; exact List.mem_cons_of_mem _ h
        · right; left; exact h
        · right; right; exact ⟨e', List.mem_cons_of_mem _ he'', h⟩

theorem upsert_keys_sinsert {ν : Type} (k : Seq) (f : ν → ν) (v₀ : ν)
    (l : List (Seq × ν)) :
    (upsert k f v₀ l).map (·.1) = sinsert (l.map (·.1)) k := by
  rw [upsert_map_fst]
  by_cases hk : k ∈ l.map (·.1)
  · simp [sinsert, hk]
  · simp [sinsert, hk]

theorem foldl_sinsert_nodup (l : List Seq) : ∀ acc : List Seq, acc.Nodup →
    (l.foldl sinsert acc).Nodup := by
  induction l with
  | nil => intro acc h; exact h
  | cons a l ih =>
    intro acc h
    simp only [List.foldl_cons]
    apply ih
    by_cases ha : a ∈ acc
    · simpa [sinsert, ha] using h
    · rw [sinsert_of_not_mem ha]
      simpa using List.Nodup.append h (List.nodup_singleton a) (by simpa using ha)

theorem firstOccurrences_nodup (l : List Seq) : (firstOccurrences l).Nodup :=
  foldl_sinsert_nodup l [] List.nodup_nil

theorem mem_foldl_sinsert (l : List Seq) : ∀ (acc : List Seq) (x : Seq),
    x ∈ l.foldl sinsert acc ↔ x ∈ acc ∨ x ∈ l := by
  induction l with
  | nil => intro acc x; simp
  | cons a l ih =>
    intro acc x
    simp only [List.foldl_cons, ih, sinsert]
    by_cases ha : a ∈ acc
    · simp only [if_pos ha]
      constructor
      · rintro (h | h)
        · exact Or.inl h
        · exact Or.inr (List.mem_cons_of_mem _ h)
      · rintro (h | h)
        · exact Or.inl h
        · rcases List.mem_cons.mp h with rfl | h'
          · exact Or.inl ha
          · exact Or.inr h'
    · simp only [if_neg ha, List.mem_append, List.mem_singleton]
      constructor
      · rintro ((h | h) | h)
        · exact Or.inl h
        · exact Or.inr (by simp [h])
        · exact Or.inr (List.mem_cons_of_mem _ h)
      · rintro (h | h)
        · exact Or.inl (Or.inl h)
        · rcases List.mem_cons.mp h with rfl | h'
          · exact Or.inl (Or.inr rfl)
          · exact Or.inr h'

/-! ### Lemmas about the shared count accumulator -/

theorem accumFrom_keys (umis : List Umi) : ∀ m : List (Seq × Nat),
    ((umis.foldl (fun m u => upsert u.sequence (fun v => (v + u.count) % U32) 0 m)
      m).map (·.1)) = (umis.map (·.sequence)).foldl sinsert (m.map (·.1)) := by
  induction umis with
  | nil => intro m; rfl
  | cons u umis ih =>
    intro m
    simp only [List.foldl_cons, List.map_cons]
    rw [ih, upsert_keys_sinsert]

theorem accumCounts_keys (umis : List Umi) :
    (accumCounts umis).map (·.1) = firstOccurrences (umis.map (·.sequence)) := by
  simpa using accumFrom_keys umis []

theorem accumCounts_keys_nodup (umis : List Umi) :
    ((accumCounts umis).map (·.1)).Nodup := by
  rw [accumCounts_keys]
  exact firstOccurrences_nodup _

theorem accumFrom_vals_lt (umis : List Umi) : ∀ m : List (Seq × Nat),
    (∀ e ∈ m, e.2 < U32) →
    ∀ e ∈ umis.foldl (fun m u => upsert u.sequence (fun v => (v + u.count) % U32) 0 m) m,
      e.2 < U32 := by
  induction umis with
  | nil => intro m h; exact h
  | cons u umis ih =>
    intro m h
    simp only [List.foldl_cons]
    apply ih
    intro e he
    rcases upsert_vals _ _ _ _ e he with h' | h' | ⟨e', _, h'⟩
    · exact h e h'
    · rw [h']; exact Nat.mod_lt _ (by norm_num [U32])
    · rw [h']; exact Nat.mod_lt _ (by norm_num [U32])

theorem accumCounts_vals_lt (umis : List Umi) :
    ∀ e ∈ accumCounts umis, e.2 < U32 :=
  accumFrom_vals_lt umis [] (by intro e he; simp at he)

theorem accumFrom_sum (umis : List Umi) : ∀ m : List (Seq × Nat),
    sumVals m + (umis.map (·.count)).sum < U32 →
    sumVals (umis.foldl (fun m u => upsert u.sequence (fun v => (v + u.count) % U32) 0 m) m)
      = sumVals m + (umis.map (·.count)).sum := by
  induction umis with
  | nil => intro m _; simp
  | cons u umis ih =>
    intro m h
    simp only [List.map_cons, List.sum_cons] at h
    simp only [List.foldl_cons, List.map_cons, List.sum_cons]
    rw [ih _ (by rw [sum_upsert _ _ _ (by omega)]; omega),
      sum_upsert _ _ _ (by omega)]
    omega

theorem accumCounts_sum (umis : List Umi)
    (h : (umis.map (·.count)).sum < U32) :
    sumVals (accumCounts umis) = (umis.map (·.count)).sum := by
  simpa [sumVals] using accumFrom_sum umis [] (by simpa [sumVals] using h)

theorem alookup_le_sumVals {κ : Type} [DecidableEq κ] (k : κ) :
    ∀ l : List (κ × Nat), (alookup k l).getD 0 ≤ sumVals l := by
  intro l
  induction l with
  | nil => simp [alookup, sumVals]
  | cons p rest ih =>
    by_cases hp : p.1 = k
    · simp only [alookup, if_pos hp, Option.getD_some, sumVals_cons]
      omega
    · simp only [alookup, if_neg hp, sumVals_cons]
      omega

theorem accumFrom_alookup (umis : List Umi) : ∀ (m : List (Seq × Nat)) (s : Seq),
    sumVals m + (umis.map (·.count)).sum < U32 →
    (alookup s (umis.foldl
        (fun m u => upsert u.sequence (fun v => (v + u.count) % U32) 0 m) m)).getD 0
      = (alookup s m).getD 0 + sumCountsFor umis s := by
  induction umis with
  | nil => intro m s _; simp [sumCountsFor]
  | cons u umis ih =>
    intro m s h
    simp only [List.map_cons, List.sum_cons] at h
    have hv : (alookup u.sequence m).getD 0 ≤ sumVals m := alookup_le_sumVals _ m
    have hnowrap : ((alookup u.sequence m).getD 0 + u.count) % U32
        = (alookup u.sequence m).getD 0 + u.count := Nat.mod_eq_of_lt (by omega)
    have hsum' : sumVals (upsert u.sequence (fun v => (v + u.count) % U32) 0 m)
        + (umis.map (·.count)).sum < U32 := by
      rw [sum_upsert _ _ _ (by omega)]; omega
    by_cases hs : u.sequence = s
    · subst hs
      simp only [List.foldl_cons]
      rw [ih _ _ hsum', alookup_upsert_self, Option.getD_some, hnowrap]
      have : sumCountsFor (u :: umis) u.sequence
          = u.count + sumCountsFor umis u.sequence := by
        simp [sumCountsFor, List.filter_cons]
      omega
    · simp only [List.foldl_cons]
      rw [ih _ _ hsum', alookup_upsert_other (fun h' => hs h'.symm)]
      have : sumCountsFor (u :: umis) s = sumCountsFor umis s := by
        simp [sumCountsFor, List.filter_cons, hs]
      omega

theorem accumCounts_alookup (umis : List Umi) (s : Seq)
    (h : (umis.map (·.count)).sum < U32) :
    (alookup s (accumCounts umis)).getD 0 = sumCountsFor umis s := by
  simpa [alookup] using accumFrom_alookup umis [] s (by simpa [sumVals] using h)

/-! ### Graph construction lemmas -/

theorem mem_zip_self {α : Type} : ∀ (l : List α) (p : α × α), p ∈ l.zip l → p.1 = p.2 := by
  intro l
  induction l with
  | nil => intro p hp; simp at hp
  | cons a l ih =>
    intro p hp
    rcases List.mem_cons.mp hp with rfl | hp'
    · rfl
    · exact ih p hp'

theorem eq_of_zip_eq {α : Type} [DecidableEq α] :
    ∀ (a b : List α), a.length = b.length → (∀ p ∈ a.zip b, p.1 = p.2) → a = b := by
  intro a
  induction a with
  | nil =>
    intro b hlen _
    cases b with
    | nil => rfl
    | cons y b => simp at hlen
  | cons x a ih =>
    intro b hlen hall
    cases b with
    | nil => simp at hlen
    | cons y b =>
      have hx : x = y := hall (x, y) (by simp)
      have : a = b := by
        apply ih b (by simpa using hlen)
        intro p hp
        exact hall p (List.mem_cons_of_mem _ hp)
      rw [hx, this]

theorem hamming_distance_eq_zero_iff (a b : Seq) :
    hamming_distance a b = 0 ↔ a = b := by
  by_cases h : a.length = b.length
  · rw [hamming_distance, if_neg (by omega)]
    constructor
    · intro hz
      have hnil := List.eq_nil_of_length_eq_zero hz
      have hall : ∀ p ∈ a.zip b, p.1 = p.2 := by
        intro p hp
        by_contra hne
        have : p ∈ (a.zip b).filter (fun p => p.1 ≠ p.2) :=
          List.mem_filter.mpr ⟨hp, by simpa using hne⟩
        rw [hnil] at this
        simp at this
      exact eq_of_zip_eq a b h hall
    · intro heq
      subst heq
      rw [List.length_eq_zero, List.filter_eq_nil_iff]
      intro p hp
      have := mem_zip_self a p hp
      simp [this]
  · rw [hamming_distance, if_pos (by omega)]
    constructor
    · intro hz
      exfalso
      have : (0 : Nat) < U32 - 1 := by norm_num [U32]
      omega
    · intro heq
      exact absurd (heq ▸ rfl) h

theorem mem_orderedPairs {α : Type} :
    ∀ (l : List α) (p : α × α), p ∈ orderedPairs l → p.1 ∈ l ∧ p.2 ∈ l := by
  intro l
  induction l with
  | nil => intro p hp; simp [orderedPairs] at hp
  | cons x rest ih =>
    intro p hp
    simp only [orderedPairs, List.mem_append, List.mem_map] at hp
    rcases hp with ⟨y, hy, rfl⟩ | hp'
    · exact ⟨by simp, List.mem_cons_of_mem _ hy⟩
    · obtain ⟨h1, h2⟩ := ih p hp'
      exact ⟨List.mem_cons_of_mem _ h1, List.mem_cons_of_mem _ h2⟩

theorem orderedPairs_ne {α : Type} :
    ∀ (l : List α), l.Nodup → ∀ p ∈ orderedPairs l, p.1 ≠ p.2 := by
  intro l
  induction l with
  | nil => intro _ p hp; simp [orderedPairs] at hp
  | cons x rest ih =>
    intro hnd p hp
    rw [List.nodup_cons] at hnd
    simp only [orderedPairs, List.mem_append, List.mem_map] at hp
    rcases hp with ⟨y, hy, rfl⟩ | hp'
    · intro h
      have hxy : x = y := h
      exact hnd.1 (hxy ▸ hy)
    · exact ih hnd.2 p hp'

theorem graph_fold_spec (umis : List Umi) : ∀ g₀ : UmiGraph,
    (umis.foldl (fun g u => g.add_umi u.sequence u.count) g₀).nodes
      = umis.foldl
          (fun m u => upsert u.sequence (fun v => (v + u.count) % U32) 0 m)
          g₀.nodes ∧
    (umis.foldl (fun g u => g.add_umi u.sequence u.count) g₀).edges = g₀.edges := by
  induction umis with
  | nil => intro g₀; exact ⟨rfl, rfl⟩
  | cons u umis ih =>
    intro g₀
    simp only [List.foldl_cons]
    exact ih (g₀.add_umi u.sequence u.count)

theorem graph_fold_nodes (umis : List Umi) :
    (umis.foldl (fun g u => g.add_umi u.sequence u.count) UmiGraph.new).nodes
      = accumCounts umis :=
  (graph_fold_spec umis UmiGraph.new).1

theorem graph_fold_edges (umis : List Umi) :
    (umis.foldl (fun g u => g.add_umi u.sequence u.count) UmiGraph.new).edges = [] :=
  (graph_fold_spec umis UmiGraph.new).2

theorem upsert_push_vals {κ : Type} [DecidableEq κ] (k : κ) (x : Seq)
    (ed : List (κ × List Seq)) (P : Seq → Prop)
    (hed : ∀ e ∈ ed, ∀ v ∈ e.2, P v) (hx : P x) :
    ∀ e ∈ upsert k (fun l => l ++ [x]) [] ed, ∀ v ∈ e.2, P v := by
  intro e he v hv
  rcases upsert_vals _ _ _ _ e he with h | h | ⟨e', he', h⟩
  · exact hed e h v hv
  · rw [h] at hv
    simp only [List.nil_append, List.mem_singleton] at hv
    rw [hv]; exact hx
  · rw [h] at hv
    rcases List.mem_append.mp hv with hv' | hv'
    · exact hed e' he' v hv'
    · rw [List.mem_singleton.mp hv']; exact hx

theorem edges_fold_vals (d : Nat) (K : List Seq) :
    ∀ (pairs : List (Seq × Seq)) (ed : List (Seq × List Seq)),
    (∀ p ∈ pairs, p.1 ∈ K ∧ p.2 ∈ K) →
    (∀ e ∈ ed, ∀ v ∈ e.2, v ∈ K) →
    ∀ e ∈ pairs.foldl
        (fun ed p =>
          if hamming_distance p.1 p.2 ≤ d then
            upsert p.2 (fun l => l ++ [p.1]) []
              (upsert p.1 (fun l => l ++ [p.2]) [] ed)
          else ed)
        ed,
      ∀ v ∈ e.2, v ∈ K := by
  intro pairs
  induction pairs with
  | nil => intro ed _ hed; exact hed
  | cons p pairs ih =>
    intro ed hp hed
    simp only [List.foldl_cons]
    apply ih _ (fun q hq => hp q (List.mem_cons_of_mem _ hq))
    by_cases hd : hamming_distance p.1 p.2 ≤ d
    · rw [if_pos hd]
      have h1 := (hp p (by simp)).1
      have h2 := (hp p (by simp)).2
      exact upsert_push_vals _ _ _ _ (upsert_push_vals _ _ _ _ hed h2) h1
    · rw [if_neg hd]
      exact hed

theorem build_edges_nodes (g : UmiGraph) (d : Nat) :
    (g.build_edges d).nodes = g.nodes := rfl

theorem build_edges_vals (g : UmiGraph) (d : Nat)
    (hed : ∀ e ∈ g.edges, ∀ v ∈ e.2, v ∈ g.nodes.map (·.1)) :
    ∀ e ∈ (g.build_edges d).edges, ∀ v ∈ e.2, v ∈ g.nodes.map (·.1) := by
  apply edges_fold_vals d (g.nodes.map (·.1)) (orderedPairs (g.nodes.map (·.1)))
  · intro p hp
    exact mem_orderedPairs _ p hp
  · exact hed

theorem fold_edges_zero_noop :
    ∀ (pairs : List (Seq × Seq)), (∀ p ∈ pairs, p.1 ≠ p.2) →
    ∀ ed : List (Seq × List Seq),
    pairs.foldl
        (fun ed p =>
          if hamming_distance p.1 p.2 ≤ 0 then
            upsert p.2 (fun l => l ++ [p.1]) []
              (upsert p.1 (fun l => l ++ [p.2]) [] ed)
          else ed)
        ed = ed := by
  intro pairs
  induction pairs with
  | nil => intro _ ed; rfl
  | cons p pairs ih =>
    intro hne ed
    have hp : p.1 ≠ p.2 := hne p (by simp)
    have hham : ¬ (hamming_distance p.1 p.2 ≤ 0) := by
      intro h
      exact hp ((hamming_distance_eq_zero_iff p.1 p.2).mp (Nat.le_zero.mp h))
    simp only [List.foldl_cons, if_neg hham]
    exact ih (fun q hq => hne q (List.mem_cons_of_mem _ hq)) ed

theorem build_edges_zero (g : UmiGraph)
    (hnd : (g.nodes.map (·.1)).Nodup) : (g.build_edges 0).edges = g.edges := by
  have h := fold_edges_zero_noop (orderedPairs (g.nodes.map (·.1)))
    (orderedPairs_ne _ hnd) g.edges
  simp only [UmiGraph.build_edges]
  exact h

theorem foldl_push_preserves (V : List Seq) :
    ∀ (ns st : List Seq) (x : Seq), x ∈ st →
    x ∈ ns.foldl (fun st n => if n ∈ V then st else n :: st) st := by
  intro ns
  induction ns with
  | nil => intro st x hx; exact hx
  | cons n ns ih =>
    intro st x hx
    simp only [List.foldl_cons]
    by_cases hn : n ∈ V
    · rw [if_pos hn]; exact ih st x hx
    · rw [if_neg hn]; exact ih (n :: st) x (List.mem_cons_of_mem _ hx)

theorem foldl_push_sub (V : List Seq) :
    ∀ (ns st : List Seq) (x : Seq),
    x ∈ ns.foldl (fun st n => if n ∈ V then st else n :: st) st →
    x ∈ st ∨ x ∈ ns := by
  intro ns
  induction ns with
  | nil => intro st x hx; exact Or.inl hx
  | cons n ns ih =>
    intro st x hx
    simp only [List.foldl_cons] at hx
    by_cases hn : n ∈ V
    · rw [if_pos hn] at hx
      rcases ih st x hx with h | h
      · exact Or.inl h
      · exact Or.inr (List.mem_cons_of_mem _ h)
    · rw [if_neg hn] at hx
      rcases ih (n :: st) x hx with h | h
      · rcases List.mem_cons.mp h with rfl | h'
        · exact Or.inr (by simp)
        · exact Or.inl h'
      · exact Or.inr (List.mem_cons_of_mem _ h)

/-! ### Depth-first search and connected components -/

theorem dfsMeasure_pop_lt (g : UmiGraph) (visited : List Seq) (current : Seq)
    (stack' : List Seq) :
    dfsMeasure g visited stack' < dfsMeasure g visited (current :: stack') := by
  simp only [dfsMeasure, List.length_cons]
  omega

theorem dfsMeasure_push_lt (g : UmiGraph) (visited : List Seq) (current : Seq)
    (stack' : List Seq) (hcur : current ∉ visited) :
    dfsMeasure g (visited ++ [current])
      (((alookup current g.edges).getD []).foldl
        (fun st n => if n ∈ visited ++ [current] then st else n :: st) stack')
      < dfsMeasure g visited (current :: stack') := by
  simp only [dfsMeasure, List.length_cons]
  have hfoldlen : ∀ (ns st : List Seq),
      (ns.foldl (fun st n => if n ∈ visited ++ [current] then st else n :: st)
        st).length ≤ st.length + ns.length := by
    intro ns
    induction ns with
    | nil => intro st; simp
    | cons a ns ih =>
      intro st
      simp only [List.foldl_cons, List.length_cons]
      by_cases ha : a ∈ visited ++ [current]
      · rw [if_pos ha]
        have := ih st
        omega
      · rw [if_neg ha]
        have := ih (a :: st)
        simp only [List.length_cons] at this
        omega
  have hlookuplen : ∀ (ed : List (Seq × List Seq)) (k : Seq),
      ((alookup k ed).getD []).length ≤ (ed.map (fun e => e.2.length)).sum := by
    intro ed k
    induction ed with
    | nil => simp [alookup]
    | cons p rest ih =>
      by_cases hp : p.1 = k
      · simp only [alookup, if_pos hp, Option.getD_some, List.map_cons, List.sum_cons]
        omega
      · simp only [alookup, if_neg hp, List.map_cons, List.sum_cons]
        omega
  have hmemimp : ∀ (a : Seq), decide (a ∉ visited ++ [current]) = true →
      decide (a ∉ visited) = true := by
    intro a h
    simp only [decide_eq_true_eq] at h ⊢
    exact fun hv => h (List.mem_append_left _ hv)
  have hmono :
      ((g.edges.map (·.1)).dedup.filter
        (fun x => decide (x ∉ visited ++ [current]))).length ≤
      ((g.edges.map (·.1)).dedup.filter
        (fun x => decide (x ∉ visited))).length := by
    rw [← List.countP_eq_length_filter, ← List.countP_eq_length_filter]
    exact List.countP_mono_left (fun a _ h => hmemimp a h)
  by_cases hc : current ∈ (g.edges.map (·.1)).dedup
  · have hstrict :
        ((g.edges.map (·.1)).dedup.filter
          (fun x => decide (x ∉ visited ++ [current]))).length <
        ((g.edges.map (·.1)).dedup.filter
          (fun x => decide (x ∉ visited))).length := by
      obtain ⟨l₁, l₂, hsplit⟩ := List.append_of_mem hc
      rw [hsplit, ← List.countP_eq_length_filter, ← List.countP_eq_length_filter,
        List.countP_append, List.countP_append, List.countP_cons, List.countP_cons]
      have e1 : decide (current ∉ visited ++ [current]) = false := by simp
      have e2 : decide (current ∉ visited) = true := by
        simp only [decide_eq_true_eq]
        exact hcur
      have m1 : l₁.countP (fun x => decide (x ∉ visited ++ [current])) ≤
          l₁.countP (fun x => decide (x ∉ visited)) :=
        List.countP_mono_left (fun a _ h => hmemimp a h)
      have m2 : l₂.countP (fun x => decide (x ∉ visited ++ [current])) ≤
          l₂.countP (fun x => decide (x ∉ visited)) :=
        List.countP_mono_left (fun a _ h => hmemimp a h)
      simp only [e1, e2]
      simp only [Bool.false_eq_true, if_false, if_true]
      omega
    have hn := hlookuplen g.edges current
    have hs := hfoldlen ((alookup current g.edges).getD []) stack'
    have hU : ((g.edges.map (·.1)).dedup.filter
          (fun x => decide (x ∉ visited ++ [current]))).length + 1 ≤
        ((g.edges.map (·.1)).dedup.filter
          (fun x => decide (x ∉ visited))).length := hstrict
    have hprod := Nat.mul_le_mul_right
      ((g.edges.map (fun e => e.2.length)).sum + 2) hU
    rw [Nat.add_mul, Nat.one_mul] at hprod
    omega
  · have hnone : alookup current g.edges = none := by
      rw [alookup_eq_none_iff]
      intro hmem
      exact hc (List.mem_dedup.mpr hmem)
    simp only [hnone, Option.getD_none, List.foldl_nil]
    have hprod := Nat.mul_le_mul_right
      ((g.edges.map (fun e => e.2.length)).sum + 2) hmono
    omega

theorem dfsAux_nil (g : UmiGraph) (fuel : Nat) (visited : List Seq) :
    dfsAux g fuel visited [] = (visited, []) := by
  cases fuel <;> rfl

theorem dfsAux_visited (g : UmiGraph) (fuel : Nat) (visited : List Seq)
    (current : Seq) (stack' : List Seq) (h : current ∈ visited) :
    dfsAux g (fuel + 1) visited (current :: stack')
      = dfsAux g fuel visited stack' := by
  simp [dfsAux, h]

theorem dfsAux_unvisited (g : UmiGraph) (fuel : Nat) (visited : List Seq)
    (current : Seq) (stack' : List Seq) (h : current ∉ visited) :
    dfsAux g (fuel + 1) visited (current :: stack') =
      ((dfsAux g fuel (visited ++ [current])
          (((alookup current g.edges).getD []).foldl
            (fun st n => if n ∈ visited ++ [current] then st else n :: st)
            stack')).1,
       current ::
        (dfsAux g fuel (visited ++ [current])
          (((alookup current g.edges).getD []).foldl
            (fun st n => if n ∈ visited ++ [current] then st else n :: st)
            stack')).2) := by
  simp [dfsAux, h]

theorem dfsAux_spec (g : UmiGraph) (K : List Seq)
    (hedges : ∀ e ∈ g.edges, ∀ v ∈ e.2, v ∈ K) :
    ∀ (fuel : Nat) (visited stack : List Seq),
    dfsMeasure g visited stack < fuel →
    (∀ x ∈ stack, x ∈ K) →
    (dfsAux g fuel visited stack).1 = visited ++ (dfsAux g fuel visited stack).2 ∧
    (dfsAux g fuel visited stack).2.Nodup ∧
    (∀ x ∈ (dfsAux g fuel visited stack).2, x ∉ visited ∧ x ∈ K) ∧
    (∀ x ∈ stack, x ∈ (dfsAux g fuel visited stack).1) := by
  intro fuel
  induction fuel with
  | zero => intro visited stack hm _; exact absurd hm (Nat.not_lt_zero _)
  | succ fuel ih =>
    intro visited stack hm hstack
    cases stack with
    | nil =>
      rw [dfsAux_nil]
      exact ⟨by simp, List.nodup_nil, by simp, by simp⟩
    | cons current stack' =>
      by_cases hcur : current ∈ visited
      · rw [dfsAux_visited g fuel visited current stack' hcur]
        have hm' : dfsMeasure g visited stack' < fuel := by
          have := dfsMeasure_pop_lt g visited current stack'
          omega
        have hstack' : ∀ x ∈ stack', x ∈ K :=
          fun x hx => hstack x (List.mem_cons_of_mem _ hx)
        obtain ⟨ih1, ih2, ih3, ih4⟩ := ih visited stack' hm' hstack'
        refine ⟨ih1, ih2, ih3, ?_⟩
        intro x hx
        rcases List.mem_cons.mp hx with rfl | hx'
        · rw [ih1]; exact List.mem_append_left _ hcur
        · exact ih4 x hx'
      · have hKcur : current ∈ K := hstack current (by simp)
        have hneigh : ∀ n ∈ (alookup current g.edges).getD [], n ∈ K := by
          intro n hn
          rcases halk : alookup current g.edges with _ | vs
          · rw [halk] at hn; simp at hn
          · rw [halk] at hn
            simp only [Option.getD_some] at hn
            exact hedges (current, vs) (alookup_mem current g.edges vs halk) n hn
        have hstack2 : ∀ x ∈ ((alookup current g.edges).getD []).foldl
            (fun st n => if n ∈ visited ++ [current] then st else n :: st) stack',
            x ∈ K := by
          intro x hx
          rcases foldl_push_sub (visited ++ [current]) _ stack' x hx with h | h
          · exact hstack x (List.mem_cons_of_mem _ h)
          · exact hneigh x h
        have hm' : dfsMeasure g (visited ++ [current])
            (((alookup current g.edges).getD []).foldl
              (fun st n => if n ∈ visited ++ [current] then st else n :: st)
              stack') < fuel := by
          have := dfsMeasure_push_lt g visited current stack' hcur
          omega
        obtain ⟨ih1, ih2, ih3, ih4⟩ := ih _ _ hm' hstack2
        rw [dfsAux_unvisited g fuel visited current stack' hcur]
        refine ⟨?_, ?_, ?_, ?_⟩
        · rw [ih1]
          simp
        · refine List.nodup_cons.mpr ⟨?_, ih2⟩
          intro hc
          exact (ih3 current hc).1 (by simp)
        · intro x hx
          rcases List.mem_cons.mp hx with rfl | hx'
          · exact ⟨hcur, hKcur⟩
          · obtain ⟨hnv, hk⟩ := ih3 x hx'
            exact ⟨fun hv => hnv (List.mem_append_left _ hv), hk⟩
        · intro x hx
          rcases List.mem_cons.mp hx with rfl | hx'
          · rw [ih1]
            exact List.mem_append_left _ (by simp)
          · exact ih4 x
              (foldl_push_preserves (visited ++ [current]) _ stack' x hx')

theorem components_fold (g : UmiGraph) (K : List Seq)
    (hedges : ∀ e ∈ g.edges, ∀ v ∈ e.2, v ∈ K) :
    ∀ (ks : List Seq) (visited : List Seq) (comps : List (List Seq)),
    (∀ x ∈ ks, x ∈ K) →
    visited = comps.flatten →
    visited.Nodup →
    (∀ x ∈ visited, x ∈ K) →
    (∀ c ∈ comps, c ≠ []) →
    (ks.foldl
      (fun acc umi =>
        if umi ∈ acc.1 then acc
        else ((dfsAux g (dfsMeasure g acc.1 [umi] + 1) acc.1 [umi]).1, acc.2 ++ [(dfsAux g (dfsMeasure g acc.1 [umi] + 1) acc.1 [umi]).2]))
      (visited, comps)).1 =
      ((ks.foldl
        (fun acc umi =>
          if umi ∈ acc.1 then acc
          else ((dfsAux g (dfsMeasure g acc.1 [umi] + 1) acc.1 [umi]).1, acc.2 ++ [(dfsAux g (dfsMeasure g acc.1 [umi] + 1) acc.1 [umi]).2]))
        (visited, comps)).2).flatten ∧
    ((ks.foldl
      (fun acc umi =>
        if umi ∈ acc.1 then acc
        else ((dfsAux g (dfsMeasure g acc.1 [umi] + 1) acc.1 [umi]).1, acc.2 ++ [(dfsAux g (dfsMeasure g acc.1 [umi] + 1) acc.1 [umi]).2]))
      (visited, comps)).1).Nodup ∧
    (∀ x ∈ (ks.foldl
      (fun acc umi =>
        if umi ∈ acc.1 then acc
        else ((dfsAux g (dfsMeasure g acc.1 [umi] + 1) acc.1 [umi]).1, acc.2 ++ [(dfsAux g (dfsMeasure g acc.1 [umi] + 1) acc.1 [umi]).2]))
      (visited, comps)).1, x ∈ K) ∧
    (∀ x ∈ ks, x ∈ (ks.foldl
      (fun acc umi =>
        if umi ∈ acc.1 then acc
        else ((dfsAux g (dfsMeasure g acc.1 [umi] + 1) acc.1 [umi]).1, acc.2 ++ [(dfsAux g (dfsMeasure g acc.1 [umi] + 1) acc.1 [umi]).2]))
      (visited, comps)).1) ∧
    (∀ x ∈ visited, x ∈ (ks.foldl
      (fun acc umi =>
        if umi ∈ acc.1 then acc
        else ((dfsAux g (dfsMeasure g acc.1 [umi] + 1) acc.1 [umi]).1, acc.2 ++ [(dfsAux g (dfsMeasure g acc.1 [umi] + 1) acc.1 [umi]).2]))
      (visited, comps)).1) ∧
    (∀ c ∈ (ks.foldl
      (fun acc umi =>
        if umi ∈ acc.1 then acc
        else ((dfsAux g (dfsMeasure g acc.1 [umi] + 1) acc.1 [umi]).1, acc.2 ++ [(dfsAux g (dfsMeasure g acc.1 [umi] + 1) acc.1 [umi]).2]))
      (visited, comps)).2, c ≠ []) := by
  intro ks
  induction ks with
  | nil =>
    intro visited comps _ hflat hnd hsub hne
    exact ⟨hflat, hnd, hsub, by simp, fun x hx => hx, hne⟩
  | cons k ks ih =>
    intro visited comps hks hflat hnd hsub hne
    have hkK : k ∈ K := hks k (by simp)
    have hks' : ∀ x ∈ ks, x ∈ K := fun x hx => hks x (List.mem_cons_of_mem _ hx)
    simp only [List.foldl_cons]
    by_cases hk : k ∈ visited
    · rw [if_pos hk]
      obtain ⟨c1, c2, c3, c4, c5, c6⟩ := ih visited comps hks' hflat hnd hsub hne
      refine ⟨c1, c2, c3, ?_, c5, c6⟩
      intro x hx
      rcases List.mem_cons.mp hx with rfl | hx'
      · exact c5 x hk
      · exact c4 x hx'
    · rw [if_neg hk]
      obtain ⟨d1, d2, d3, d4⟩ := dfsAux_spec g K hedges
        (dfsMeasure g visited [k] + 1) visited [k] (Nat.lt_succ_self _)
        (by intro x hx; rcases List.mem_singleton.mp hx with rfl; exact hkK)
      have hflat' : (dfsAux g (dfsMeasure g visited [k] + 1) visited [k]).1 =
          (comps ++ [(dfsAux g (dfsMeasure g visited [k] + 1) visited [k]).2]).flatten := by
        rw [d1, hflat]
        simp
      have hnd' : (dfsAux g (dfsMeasure g visited [k] + 1) visited [k]).1.Nodup := by
        rw [d1]
        apply List.Nodup.append hnd d2
        intro x hx1 hx2
        exact (d3 x hx2).1 hx1
      have hsub' : ∀ x ∈ (dfsAux g (dfsMeasure g visited [k] + 1) visited [k]).1, x ∈ K := by
        intro x hx
        rw [d1] at hx
        rcases List.mem_append.mp hx with h | h
        · exact hsub x h
        · exact (d3 x h).2
      have hne' : ∀ c ∈ comps ++ [(dfsAux g (dfsMeasure g visited [k] + 1) visited [k]).2], c ≠ [] := by
        intro c hc
        rcases List.mem_append.mp hc with h | h
        · exact hne c h
        · rw [List.mem_singleton.mp h]
          intro hcnil
          have := d4 k (by simp)
          rw [d1, hcnil] at this
          simp at this
          exact hk this
      obtain ⟨c1, c2, c3, c4, c5, c6⟩ := ih (dfsAux g (dfsMeasure g visited [k] + 1) visited [k]).1
        (comps ++ [(dfsAux g (dfsMeasure g visited [k] + 1) visited [k]).2]) hks' hflat' hnd' hsub' hne'
      refine ⟨c1, c2, c3, ?_, ?_, c6⟩
      · intro x hx
        rcases List.mem_cons.mp hx with rfl | hx'
        · exact c5 x (d4 x (by simp))
        · exact c4 x hx'
      · intro x hx
        exact c5 x (by rw [d1]; exact List.mem_append_left _ hx)

theorem connected_components_spec (g : UmiGraph)
    (hedges : ∀ e ∈ g.edges, ∀ v ∈ e.2, v ∈ g.nodes.map (·.1)) :
    g.connected_components.flatten.Nodup ∧
    (∀ x, x ∈ g.connected_components.flatten ↔ x ∈ g.nodes.map (·.1)) ∧
    (∀ comp ∈ g.connected_components, comp ≠ []) := by
  obtain ⟨c1, c2, c3, c4, _, c6⟩ := components_fold g (g.nodes.map (·.1)) hedges
    (g.nodes.map (·.1)) [] [] (fun x hx => hx) rfl List.nodup_nil
    (by intro x hx; simp at hx) (by intro c hc; simp at hc)
  refine ⟨by rw [UmiGraph.connected_components, ← c1]; exact c2, ?_, ?_⟩
  · intro x
    constructor
    · intro hx
      apply c3
      rw [UmiGraph.connected_components, ← c1] at hx
      exact hx
    · intro hx
      rw [UmiGraph.connected_components, ← c1]
      exact c4 x hx
  · intro comp hc
    apply c6
    rw [UmiGraph.connected_components] at hc
    exact hc

/-! ### Group construction lemmas -/

theorem foldl_add_member_members : ∀ (l : List Umi) (g₀ : UmiGroup),
    (l.foldl UmiGroup.add_member g₀).members = g₀.members ++ l ∧
    (l.foldl UmiGroup.add_member g₀).representative = g₀.representative := by
  intro l
  induction l with
  | nil => intro g₀; simp
  | cons u l ih =>
    intro g₀
    simp only [List.foldl_cons]
    obtain ⟨h1, h2⟩ := ih (g₀.add_member u)
    refine ⟨?_, h2⟩
    rw [h1]
    simp [UmiGroup.add_member]

theorem foldl_add_member_total : ∀ (l : List Umi) (g₀ : UmiGroup),
    g₀.total_count + (l.map (·.count)).sum < U32 →
    (l.foldl UmiGroup.add_member g₀).total_count
      = g₀.total_count + (l.map (·.count)).sum := by
  intro l
  induction l with
  | nil => intro g₀ _; simp
  | cons u l ih =>
    intro g₀ h
    simp only [List.map_cons, List.sum_cons] at h
    simp only [List.foldl_cons, List.map_cons, List.sum_cons]
    have hstep : (g₀.add_member u).total_count = g₀.total_count + u.count := by
      simp only [UmiGroup.add_member]
      exact Nat.mod_eq_of_lt (by omega)
    rw [ih (g₀.add_member u) (by rw [hstep]; omega), hstep]
    omega

theorem insertSorted_perm {α : Type} (le : α → α → Bool) (a : α) :
    ∀ l : List α, (insertSorted le a l).Perm (a :: l) := by
  intro l
  induction l with
  | nil => simp [insertSorted]
  | cons b l ih =>
    by_cases h : le a b
    · simp [insertSorted, h]
    · simp only [insertSorted, if_neg h]
      exact (ih.cons b).trans (List.Perm.swap a b l)

theorem insertionSortBy_perm {α : Type} (le : α → α → Bool) :
    ∀ l : List α, (insertionSortBy le l).Perm l := by
  intro l
  induction l with
  | nil => simp [insertionSortBy]
  | cons a l ih =>
    exact (insertSorted_perm le a (insertionSortBy le l)).trans (ih.cons a)

theorem insertSorted_pairwise {α : Type} (le : α → α → Bool)
    (htot : ∀ a b, le a b || le b a)
    (htrans : ∀ a b c, le a b = true → le b c = true → le a c = true) (a : α) :
    ∀ l : List α, l.Pairwise (fun x y => le x y = true) →
    (insertSorted le a l).Pairwise (fun x y => le x y = true) := by
  intro l
  induction l with
  | nil => intro _; simp [insertSorted]
  | cons b l ih =>
    intro hp
    rw [List.pairwise_cons] at hp
    by_cases h : le a b
    · simp only [insertSorted, if_pos h]
      rw [List.pairwise_cons]
      refine ⟨?_, List.pairwise_cons.mpr hp⟩
      intro x hx
      rcases List.mem_cons.mp hx with rfl | hx'
      · exact h
      · exact htrans a b x h (hp.1 x hx')
    · simp only [insertSorted, if_neg h]
      rw [List.pairwise_cons]
      have hba : le b a := by
        have := htot a b
        simp only [Bool.or_eq_true] at this
        rcases this with h' | h'
        · exact absurd h' h
        · exact h'
      refine ⟨?_, ih hp.2⟩
      intro x hx
      have hx' := (insertSorted_perm le a l).mem_iff.mp hx
      rcases List.mem_cons.mp hx' with rfl | hx''
      · exact hba
      · exact hp.1 x hx''

theorem insertionSortBy_pairwise {α : Type} (le : α → α → Bool)
    (htot : ∀ a b, le a b || le b a)
    (htrans : ∀ a b c, le a b = true → le b c = true → le a c = true) :
    ∀ l : List α,
    (insertionSortBy le l).Pairwise (fun x y => le x y = true) := by
  intro l
  induction l with
  | nil => simp [insertionSortBy]
  | cons a l ih => exact insertSorted_pairwise le htot htrans a _ ih

theorem sort_desc_head_max (l : List Umi) (hne : l ≠ []) :
    ∃ hd t, insertionSortBy (fun a b => decide (b.count ≤ a.count)) l = hd :: t ∧
      ∀ x ∈ hd :: t, x.count ≤ hd.count := by
  have hperm := insertionSortBy_perm (fun a b : Umi => decide (b.count ≤ a.count)) l
  have hlen : (insertionSortBy (fun a b : Umi => decide (b.count ≤ a.count)) l).length
      = l.length := hperm.length_eq
  rcases hms : insertionSortBy (fun a b : Umi => decide (b.count ≤ a.count)) l
    with _ | ⟨hd, t⟩
  · rw [hms] at hlen
    cases l with
    | nil => exact absurd rfl hne
    | cons a l => simp at hlen
  · have hsorted := insertionSortBy_pairwise
      (fun a b : Umi => decide (b.count ≤ a.count))
      (fun a b => by
        simp only [Bool.or_eq_true, decide_eq_true_eq]
        omega)
      (fun a b c hab hbc => by
        simp only [decide_eq_true_eq] at *
        omega)
      l
    rw [hms] at hsorted
    refine ⟨hd, t, rfl, ?_⟩
    intro x hx
    rcases List.mem_cons.mp hx with rfl | hx'
    · exact le_refl _
    · have := (List.pairwise_cons.mp hsorted).1 x hx'
      simpa using this

/-! ### Characterizations of the deduplicators -/

theorem deduplicate_eq (d : UmiDeduplicator) (umis : List Umi)
    (hne : ¬ (umis.isEmpty = true)) :
    d.deduplicate umis =
      (dedupGraph d umis).connected_components.map (mkGroup (dedupGraph d umis)) := by
  rw [UmiDeduplicator.deduplicate, if_neg hne]
  rfl

theorem deduplicate_exact_eq (d : UmiDeduplicator) (umis : List Umi) :
    d.deduplicate_exact umis =
      (accumCounts umis).map
        (fun p => (UmiGroup.new p.1).add_member (Umi.with_count p.1 p.2)) := rfl

theorem dedupGraph_nodes (d : UmiDeduplicator) (umis : List Umi) :
    (dedupGraph d umis).nodes = accumCounts umis := by
  rw [dedupGraph, build_edges_nodes, graph_fold_nodes]

theorem dedupGraph_edges_vals (d : UmiDeduplicator) (umis : List Umi) :
    ∀ e ∈ (dedupGraph d umis).edges, ∀ v ∈ e.2,
      v ∈ (dedupGraph d umis).nodes.map (·.1) := by
  have h := build_edges_vals
    (umis.foldl (fun g u => g.add_umi u.sequence u.count) UmiGraph.new)
    d.max_distance
    (by rw [graph_fold_edges]; intro e he; simp at he)
  intro e he v hv
  exact h e he v hv

theorem mkGroup_members_rep (g : UmiGraph) (component : List Seq) :
    (mkGroup g component).members =
      insertionSortBy (fun a b => decide (b.count ≤ a.count))
        (component.map (fun s => Umi.with_count s (g.get_count s))) ∧
    (mkGroup g component).representative =
      ((insertionSortBy (fun a b => decide (b.count ≤ a.count))
        (component.map (fun s => Umi.with_count s (g.get_count s)))).headD
          (Umi.with_count [] 0)).sequence := by
  simp only [mkGroup]
  constructor
  · rw [(foldl_add_member_members _ _).1]
    simp [UmiGroup.new]
  · rw [(foldl_add_member_members _ _).2]
    rfl

theorem mkGroup_total (g : UmiGraph) (component : List Seq)
    (h : ((component.map (fun s => g.get_count s)).sum < U32)) :
    (mkGroup g component).total_count
      = (component.map (fun s => g.get_count s)).sum := by
  have hperm := insertionSortBy_perm (fun a b : Umi => decide (b.count ≤ a.count))
    (component.map (fun s => Umi.with_count s (g.get_count s)))
  have hsum : ((insertionSortBy (fun a b => decide (b.count ≤ a.count))
      (component.map (fun s => Umi.with_count s (g.get_count s)))).map
        (fun u => u.count)).sum
      = (component.map (fun s => g.get_count s)).sum := by
    rw [(hperm.map (fun u : Umi => u.count)).sum_eq, List.map_map]
    rfl
  rw [mkGroup]
  have := foldl_add_member_total
    (insertionSortBy (fun a b => decide (b.count ≤ a.count))
      (component.map (fun s => Umi.with_count s (g.get_count s))))
    (UmiGroup.new ((insertionSortBy (fun a b => decide (b.count ≤ a.count))
      (component.map (fun s => Umi.with_count s (g.get_count s)))).headD
        (Umi.with_count [] 0)).sequence)
    (by simpa [UmiGroup.new, hsum] using h)
  simpa [UmiGroup.new, hsum] using this

theorem sum_map_le_of_nodup_subset (comp keys : List Seq) (f : Seq → Nat)
    (hnd : comp.Nodup) (hsub : comp ⊆ keys) :
    (comp.map f).sum ≤ (keys.map f).sum := by
  obtain ⟨l, hl, hsubl⟩ := List.Nodup.subperm hnd hsub
  calc (comp.map f).sum = (l.map f).sum := ((hl.map f).sum_eq).symm
    _ ≤ (keys.map f).sum :=
      (hsubl.map f).sum_le_sum (by intro a _; exact Nat.zero_le a)

theorem sum_alookup_keys : ∀ (l : List (Seq × Nat)), ((l.map (·.1)).Nodup) →
    ((l.map (·.1)).map (fun k => (alookup k l).getD 0)).sum = sumVals l := by
  intro l
  induction l with
  | nil => simp [sumVals]
  | cons p rest ih =>
    intro hnd
    simp only [List.map_cons, List.nodup_cons] at hnd
    simp only [List.map_cons, List.sum_cons, sumVals_cons]
    have hfirst : (alookup p.1 (p :: rest)).getD 0 = p.2 := by
      simp [alookup]
    have htail : (rest.map (·.1)).map (fun k => (alookup k (p :: rest)).getD 0)
        = (rest.map (·.1)).map (fun k => (alookup k rest).getD 0) := by
      apply List.map_congr_left
      intro k hk
      have hne : ¬ (p.1 = k) := fun h => hnd.1 (h ▸ hk)
      simp [alookup, hne]
    rw [hfirst, htail, ih hnd.2]

theorem dfs_singleton_edgeless (g : UmiGraph) (hedges : g.edges = [])
    (visited : List Seq) (k : Seq) (hk : k ∉ visited) (M : Nat) :
    dfsAux g (M + 1) visited [k] = (visited ++ [k], [k]) := by
  rw [dfsAux_unvisited g M visited k [] hk, hedges]
  simp [alookup, dfsAux_nil]

theorem components_fold_edgeless (g : UmiGraph) (hedges : g.edges = []) :
    ∀ (ks visited : List Seq) (comps : List (List Seq)),
    ks.Nodup → (∀ x ∈ ks, x ∉ visited) →
    (ks.foldl
      (fun acc umi =>
        if umi ∈ acc.1 then acc
        else
          let r := dfsAux g (dfsMeasure g acc.1 [umi] + 1) acc.1 [umi]
          (r.1, acc.2 ++ [r.2]))
      (visited, comps))
      = (visited ++ ks, comps ++ ks.map (fun s => [s])) := by
  intro ks
  induction ks with
  | nil => intro visited comps _ _; simp
  | cons k ks ih =>
    intro visited comps hnd hnv
    have hk : k ∉ visited := hnv k (by simp)
    rw [List.nodup_cons] at hnd
    simp only [List.foldl_cons, if_neg hk,
      dfs_singleton_edgeless g hedges visited k hk _]
    rw [ih (visited ++ [k]) (comps ++ [[k]]) hnd.2 ?_]
    · simp
    · intro x hx hmem
      rcases List.mem_append.mp hmem with h | h
      · exact hnv x (List.mem_cons_of_mem _ hx) h
      · rw [List.mem_singleton.mp h] at hx
        exact hnd.1 hx

theorem connected_components_edgeless (g : UmiGraph) (hedges : g.edges = [])
    (hnd : (g.nodes.map (·.1)).Nodup) :
    g.connected_components = (g.nodes.map (·.1)).map (fun s => [s]) := by
  rw [UmiGraph.connected_components,
    components_fold_edgeless g hedges _ [] [] hnd (by simp)]
  simp

theorem new_add_member_wc (s : Seq) (c : Nat) :
    (UmiGroup.new s).add_member (Umi.with_count s c)
      = UmiGroup.mk s [Umi.with_count s c] (c % U32) := by
  simp [UmiGroup.new, UmiGroup.add_member, Umi.with_count]

/-! ### Claim theorems for UMI deduplication -/

/-- C3 (corrected).  In every group returned by `deduplicate`, the
representative is a member whose count is maximal in the group.  (The
lexicographic tie-break asserted by the claim is not implemented: the code
only sorts by count descending with a stable sort, so ties keep the
traversal order of the component.) -/
theorem c3_representative_max_count (d : UmiDeduplicator) (umis : List Umi) :
    ∀ grp ∈ d.deduplicate umis,
    ∃ m ∈ grp.members, m.sequence = grp.representative ∧
      ∀ m2 ∈ grp.members, m2.count ≤ m.count := by
  intro grp hgrp
  by_cases hempty : umis.isEmpty = true
  · rw [UmiDeduplicator.deduplicate, if_pos hempty] at hgrp
    simp at hgrp
  · rw [deduplicate_eq d umis hempty, List.mem_map] at hgrp
    obtain ⟨comp, hcomp, rfl⟩ := hgrp
    obtain ⟨_, _, hnonempty⟩ :=
      connected_components_spec (dedupGraph d umis) (dedupGraph_edges_vals d umis)
    have hcompne : comp ≠ [] := hnonempty comp hcomp
    have hgune :
        comp.map (fun s => Umi.with_count s ((dedupGraph d umis).get_count s)) ≠ [] := by
      simpa [List.map_eq_nil_iff] using hcompne
    obtain ⟨hd, t, hms, hmax⟩ := sort_desc_head_max _ hgune
    obtain ⟨hmem, hrep⟩ := mkGroup_members_rep (dedupGraph d umis) comp
    refine ⟨hd, ?_, ?_, ?_⟩
    · rw [hmem, hms]
      simp
    · rw [hrep, hms]
      rfl
    · intro m2 hm2
      rw [hmem, hms] at hm2
      exact hmax m2 hm2

/-- Witness for C3: for the input `{AA×10, AC×2, GG×5}` at distance 1, the
first emitted group is `(AA, [AA×10, AC×2], 12)` and its representative `AA`
is a member of maximal count. -/
theorem c3_representative_max_count_witness :
    ∃ m ∈ (UmiGroup.mk ['A','A'] [⟨['A','A'], 10⟩, ⟨['A','C'], 2⟩] 12).members,
      m.sequence = (UmiGroup.mk ['A','A']
        [⟨['A','A'], 10⟩, ⟨['A','C'], 2⟩] 12).representative ∧
      ∀ m2 ∈ (UmiGroup.mk ['A','A'] [⟨['A','A'], 10⟩, ⟨['A','C'], 2⟩] 12).members,
        m2.count ≤ m.count :=
  c3_representative_max_count (UmiDeduplicator.mk 1)
    [⟨['A','A'], 10⟩, ⟨['A','C'], 2⟩, ⟨['G','G'], 5⟩]
    (UmiGroup.mk ['A','A'] [⟨['A','A'], 10⟩, ⟨['A','C'], 2⟩] 12)
    (by decide)

/-- Counterexample to C3 as stated: with input `{CC×5, CA×5}` at distance 1
the two members tie at the maximal count 5, the lexicographically smallest
tied sequence is `CA`, yet the returned representative is `CC` (the first
node in traversal order, kept by the stable sort). -/
theorem c3_counterexample :
    ¬ (∀ grp ∈ (UmiDeduplicator.mk 1).deduplicate
          [⟨['C','C'], 5⟩, ⟨['C','A'], 5⟩],
        ∃ m ∈ grp.members, grp.representative = m.sequence ∧
          (∀ m2 ∈ grp.members, m2.count ≤ m.count) ∧
          (∀ m2 ∈ grp.members, m2.count = m.count →
            m2.sequence = m.sequence ∨ seqLt m.sequence m2.sequence = true)) := by
  decide

/-- C6 (corrected).  Provided the total input count fits in `u32` (no
wrapping), the group totals of both `deduplicate` (any distance) and
`deduplicate_exact` sum to the total input count. -/
theorem c6_dedup_conservation (d : UmiDeduplicator) (umis : List Umi)
    (hsum : (umis.map (·.count)).sum < U32) :
    (((d.deduplicate umis).map (fun g => g.total_count)).sum
      = (umis.map (·.count)).sum) ∧
    (((d.deduplicate_exact umis).map (fun g => g.total_count)).sum
      = (umis.map (·.count)).sum) := by
  constructor
  · by_cases hempty : umis.isEmpty = true
    · rw [UmiDeduplicator.deduplicate, if_pos hempty, List.isEmpty_iff.mp hempty]
      simp
    · rw [deduplicate_eq d umis hempty]
      obtain ⟨hflatnd, hmemiff, _⟩ :=
        connected_components_spec (dedupGraph d umis) (dedupGraph_edges_vals d umis)
      have hkeysnd : ((dedupGraph d umis).nodes.map (·.1)).Nodup := by
        rw [dedupGraph_nodes]
        exact accumCounts_keys_nodup umis
      have hperm : ((dedupGraph d umis).connected_components.flatten).Perm
          ((dedupGraph d umis).nodes.map (·.1)) :=
        (List.perm_ext_iff_of_nodup hflatnd hkeysnd).mpr hmemiff
      have hkeysum : (((dedupGraph d umis).nodes.map (·.1)).map
          (fun k => (dedupGraph d umis).get_count k)).sum
          = (umis.map (·.count)).sum := by
        have h := sum_alookup_keys (dedupGraph d umis).nodes hkeysnd
        rw [show ((dedupGraph d umis).nodes.map (·.1)).map
            (fun k => (dedupGraph d umis).get_count k)
            = ((dedupGraph d umis).nodes.map (·.1)).map
              (fun k => (alookup k (dedupGraph d umis).nodes).getD 0) from rfl, h]
        rw [show sumVals (dedupGraph d umis).nodes
            = sumVals (accumCounts umis) by rw [dedupGraph_nodes]]
        exact accumCounts_sum umis hsum
      have hcomps : ∀ comp ∈ (dedupGraph d umis).connected_components,
          comp.Nodup ∧ comp ⊆ (dedupGraph d umis).nodes.map (·.1) := by
        intro comp hcomp
        refine ⟨(List.nodup_flatten.mp hflatnd).1 comp hcomp, ?_⟩
        intro x hx
        exact (hmemiff x).mp (List.mem_flatten.mpr ⟨comp, hcomp, hx⟩)
      have htotal : ∀ comp ∈ (dedupGraph d umis).connected_components,
          (mkGroup (dedupGraph d umis) comp).total_count =
            (comp.map (fun s => (dedupGraph d umis).get_count s)).sum := by
        intro comp hcomp
        apply mkGroup_total
        calc (comp.map (fun s => (dedupGraph d umis).get_count s)).sum
            ≤ (((dedupGraph d umis).nodes.map (·.1)).map
                (fun k => (dedupGraph d umis).get_count k)).sum :=
              sum_map_le_of_nodup_subset _ _ _
                (hcomps comp hcomp).1 (hcomps comp hcomp).2
          _ = (umis.map (·.count)).sum := hkeysum
          _ < U32 := hsum
      rw [List.map_map]
      have hcong : (dedupGraph d umis).connected_components.map
          ((fun g => g.total_count) ∘ mkGroup (dedupGraph d umis))
          = (dedupGraph d umis).connected_components.map
            (fun comp =>
              (comp.map (fun s => (dedupGraph d umis).get_count s)).sum) :=
        List.map_congr_left (fun comp hcomp => htotal comp hcomp)
      rw [hcong]
      have hflat : (((dedupGraph d umis).connected_components.flatten).map
            (fun s => (dedupGraph d umis).get_count s)).sum
          = ((dedupGraph d umis).connected_components.map
              (fun comp =>
                (comp.map (fun s => (dedupGraph d umis).get_count s)).sum)).sum := by
        rw [List.map_flatten, List.sum_flatten, List.map_map]
        rfl
      rw [← hflat, (hperm.map _).sum_eq, hkeysum]
  · rw [deduplicate_exact_eq, List.map_map]
    have hpt : (accumCounts umis).map ((fun g => g.total_count) ∘
        (fun p => (UmiGroup.new p.1).add_member (Umi.with_count p.1 p.2)))
        = (accumCounts umis).map (fun p => p.2) := by
      apply List.map_congr_left
      intro p hp
      have hlt := accumCounts_vals_lt umis p hp
      simp only [Function.comp_apply]
      rw [new_add_member_wc]
      exact Nat.mod_eq_of_lt hlt
    rw [hpt]
    exact accumCounts_sum umis hsum

/-- Witness for C6: for the input `{AA×10, AC×2, GG×5}` (total 17) at
distance 1, both deduplicators conserve the total count. -/
theorem c6_dedup_conservation_witness :
    (([⟨['A','A'], 10⟩, ⟨['A','C'], 2⟩, ⟨['G','G'], 5⟩].map
        (Umi.count)).sum < U32) ∧
    ((((UmiDeduplicator.mk 1).deduplicate
        [⟨['A','A'], 10⟩, ⟨['A','C'], 2⟩, ⟨['G','G'], 5⟩]).map
          (fun g => g.total_count)).sum
      = ([⟨['A','A'], 10⟩, ⟨['A','C'], 2⟩, ⟨['G','G'], 5⟩].map
          (Umi.count)).sum) ∧
    ((((UmiDeduplicator.mk 1).deduplicate_exact
        [⟨['A','A'], 10⟩, ⟨['A','C'], 2⟩, ⟨['G','G'], 5⟩]).map
          (fun g => g.total_count)).sum
      = ([⟨['A','A'], 10⟩, ⟨['A','C'], 2⟩, ⟨['G','G'], 5⟩].map
          (Umi.count)).sum) :=
  ⟨by decide,
   (c6_dedup_conservation (UmiDeduplicator.mk 1)
     [⟨['A','A'], 10⟩, ⟨['A','C'], 2⟩, ⟨['G','G'], 5⟩] (by decide)).1,
   (c6_dedup_conservation (UmiDeduplicator.mk 1)
     [⟨['A','A'], 10⟩, ⟨['A','C'], 2⟩, ⟨['G','G'], 5⟩] (by decide)).2⟩

/-- Counterexample to C6 as stated: two copies of `AA` with count `2^31`
overflow the `u32` node accumulator (release-mode wrapping), so the group
totals sum to 0 while the input counts sum to `2^32`. -/
theorem c6_counterexample :
    ¬ ((((UmiDeduplicator.mk 1).deduplicate
          [⟨['A','A'], 2 ^ 31⟩, ⟨['A','A'], 2 ^ 31⟩]).map
            (fun g => g.total_count)).sum
        = ([⟨['A','A'], 2 ^ 31⟩, ⟨['A','A'], 2 ^ 31⟩].map (Umi.count)).sum) := by
  decide

/-- C10 (corrected).  Provided the total input count fits in `u32`,
`deduplicate` with distance 0 and `deduplicate_exact` return the same list
of groups (so in particular the same multiset): one group per distinct
input sequence in first-seen order, with that sequence as representative, a
single member, and `total_count` the summed input count of that sequence. -/
theorem c10_zero_distance_equiv (umis : List Umi)
    (hsum : (umis.map (·.count)).sum < U32) :
    ((UmiDeduplicator.mk 0).deduplicate umis
      = (UmiDeduplicator.mk 0).deduplicate_exact umis) ∧
    ((UmiDeduplicator.mk 0).deduplicate_exact umis
      = (firstOccurrences (umis.map (·.sequence))).map
          (fun s => UmiGroup.mk s [Umi.with_count s (sumCountsFor umis s)]
            (sumCountsFor umis s))) := by
  have hkeysnd := accumCounts_keys_nodup umis
  have hvals := accumCounts_vals_lt umis
  have hexact : (UmiDeduplicator.mk 0).deduplicate_exact umis
      = (accumCounts umis).map
        (fun p => UmiGroup.mk p.1 [Umi.with_count p.1 p.2] p.2) := by
    rw [deduplicate_exact_eq]
    apply List.map_congr_left
    intro p hp
    rw [new_add_member_wc, Nat.mod_eq_of_lt (hvals p hp)]
  constructor
  · by_cases hempty : umis.isEmpty = true
    · rw [UmiDeduplicator.deduplicate, if_pos hempty, List.isEmpty_iff.mp hempty]
      rfl
    · rw [deduplicate_eq _ umis hempty, hexact]
      have hnodes : (dedupGraph (UmiDeduplicator.mk 0) umis).nodes
          = accumCounts umis := dedupGraph_nodes _ umis
      have hedges0 : (dedupGraph (UmiDeduplicator.mk 0) umis).edges = [] := by
        rw [dedupGraph]
        rw [build_edges_zero _ (by rw [graph_fold_nodes]; exact hkeysnd)]
        exact graph_fold_edges umis
      rw [connected_components_edgeless _ hedges0
        (by rw [hnodes]; exact hkeysnd), hnodes]
      rw [show (accumCounts umis).map (·.1)
          = (accumCounts umis).map (fun p => p.1) from rfl]
      rw [List.map_map, List.map_map]
      apply List.map_congr_left
      intro p hp
      have hget : (dedupGraph (UmiDeduplicator.mk 0) umis).get_count p.1 = p.2 := by
        rw [UmiGraph.get_count, hnodes, alookup_self_of_nodup hkeysnd p hp]
        rfl
      simp only [Function.comp_apply]
      rw [show mkGroup (dedupGraph (UmiDeduplicator.mk 0) umis) [p.1]
          = (UmiGroup.new p.1).add_member
            (Umi.with_count p.1
              ((dedupGraph (UmiDeduplicator.mk 0) umis).get_count p.1)) from rfl]
      rw [hget, new_add_member_wc, Nat.mod_eq_of_lt (hvals p hp)]
  · rw [hexact, ← accumCounts_keys]
    rw [show (accumCounts umis).map (·.1)
        = (accumCounts umis).map (fun p => p.1) from rfl]
    rw [List.map_map]
    apply List.map_congr_left
    intro p hp
    have hv : p.2 = sumCountsFor umis p.1 := by
      have h1 := alookup_self_of_nodup hkeysnd p hp
      have h2 := accumCounts_alookup umis p.1 hsum
      rw [h1] at h2
      simpa using h2
    simp only [Function.comp_apply]
    rw [hv]

/-- Witness for C10: input `{AA×1, AB×2, AA×3}` (total 6): distance-0
deduplication equals exact deduplication, and the groups are one per
distinct sequence in first-seen order with summed counts. -/
theorem c10_zero_distance_equiv_witness :
    (([⟨['A','A'], 1⟩, ⟨['A','B'], 2⟩, ⟨['A','A'], 3⟩].map (Umi.count)).sum < U32) ∧
    ((UmiDeduplicator.mk 0).deduplicate
        [⟨['A','A'], 1⟩, ⟨['A','B'], 2⟩, ⟨['A','A'], 3⟩]
      = (UmiDeduplicator.mk 0).deduplicate_exact
          [⟨['A','A'], 1⟩, ⟨['A','B'], 2⟩, ⟨['A','A'], 3⟩]) ∧
    ((UmiDeduplicator.mk 0).deduplicate_exact
        [⟨['A','A'], 1⟩, ⟨['A','B'], 2⟩, ⟨['A','A'], 3⟩]
      = (firstOccurrences ([⟨['A','A'], 1⟩, ⟨['A','B'], 2⟩, ⟨['A','A'], 3⟩].map
          (Umi.sequence))).map
          (fun s => UmiGroup.mk s
            [Umi.with_count s
              (sumCountsFor [⟨['A','A'], 1⟩, ⟨['A','B'], 2⟩, ⟨['A','A'], 3⟩] s)]
            (sumCountsFor [⟨['A','A'], 1⟩, ⟨['A','B'], 2⟩, ⟨['A','A'], 3⟩] s))) :=
  ⟨by decide,
   (c10_zero_distance_equiv
     [⟨['A','A'], 1⟩, ⟨['A','B'], 2⟩, ⟨['A','A'], 3⟩] (by decide)).1,
   (c10_zero_distance_equiv
     [⟨['A','A'], 1⟩, ⟨['A','B'], 2⟩, ⟨['A','A'], 3⟩] (by decide)).2⟩

/-- Counterexample to C10 as stated: two copies of `GG` with count `2^31`
wrap the `u32` accumulator, so the single group's `total_count` is 0, not
the input sum `2^32` the claim asserts. -/
theorem c10_counterexample :
    ¬ (∀ grp ∈ (UmiDeduplicator.mk 0).deduplicate
          [⟨['G','G'], 2 ^ 31⟩, ⟨['G','G'], 2 ^ 31⟩],
        grp.total_count
          = sumCountsFor [⟨['G','G'], 2 ^ 31⟩, ⟨['G','G'], 2 ^ 31⟩]
              grp.representative) := by
  decide

/-! ### Whitelist construction (C7) -/

theorem acceptedLines_nil : acceptedLines [] = [] := by
  simp [acceptedLines]

theorem acceptedLines_cons (line : Seq) (rest : List Seq) :
    acceptedLines (line :: rest) =
      if (rustTrim line).isEmpty = true ∨ (rustTrim line).head? = some '#' then
        acceptedLines rest
      else rustTrim line :: acceptedLines rest := by
  by_cases h : (rustTrim line).isEmpty = true ∨ (rustTrim line).head? = some '#'
  · have hdf : decide (¬ ((rustTrim line).isEmpty = true
        ∨ (rustTrim line).head? = some '#')) = false := by
      simp only [decide_eq_false_iff_not, not_not]
      exact h
    simp only [acceptedLines, List.map_cons, List.filter_cons, hdf, if_pos h]
    simp
  · have hdt : decide (¬ ((rustTrim line).isEmpty = true
        ∨ (rustTrim line).head? = some '#')) = true := by
      simp only [decide_eq_true_eq]
      exact h
    simp only [acceptedLines, List.map_cons, List.filter_cons, hdt, if_neg h]
    simp

theorem fromLinesAux_pos : ∀ (lines bcs : List Seq) (blen : Nat), blen ≠ 0 →
    ((∀ b ∈ acceptedLines lines, b.length = blen) →
      fromLinesAux lines bcs blen =
        Except.ok ⟨(acceptedLines lines).foldl sinsert bcs, blen⟩)
    ∧ ((∃ b ∈ acceptedLines lines, b.length ≠ blen) →
      ∃ g, g ≠ blen ∧
        fromLinesAux lines bcs blen =
          Except.error (WlError.inconsistentLength blen g)) := by
  intro lines
  induction lines with
  | nil =>
    intro bcs blen _
    constructor
    · intro _
      simp [fromLinesAux, acceptedLines_nil]
    · rintro ⟨b, hb, _⟩
      rw [acceptedLines_nil] at hb
      simp at hb
  | cons line rest ih =>
    intro bcs blen hblen
    by_cases hskip : (rustTrim line).isEmpty = true ∨ (rustTrim line).head? = some '#'
    · have hfl : fromLinesAux (line :: rest) bcs blen = fromLinesAux rest bcs blen := by
        simp only [fromLinesAux]
        rw [if_pos hskip]
      rw [acceptedLines_cons, if_pos hskip, hfl]
      exact ih bcs blen hblen
    · have hfl : fromLinesAux (line :: rest) bcs blen =
          if (rustTrim line).length ≠ blen then
            Except.error (WlError.inconsistentLength blen (rustTrim line).length)
          else fromLinesAux rest (sinsert bcs (rustTrim line)) blen := by
        simp only [fromLinesAux]
        rw [if_neg hskip, if_neg hblen]
      rw [acceptedLines_cons, if_neg hskip]
      by_cases hlen : (rustTrim line).length = blen
      · rw [hfl, if_neg (not_not_intro hlen)]
        constructor
        · intro hall
          have hrest : ∀ b ∈ acceptedLines rest, b.length = blen := by
            intro b hb
            exact hall b (List.mem_cons_of_mem _ hb)
          rw [(ih (sinsert bcs (rustTrim line)) blen hblen).1 hrest]
          rfl
        · rintro ⟨b, hb, hbne⟩
          rcases List.mem_cons.mp hb with rfl | hb'
          · exact absurd hlen hbne
          · exact (ih (sinsert bcs (rustTrim line)) blen hblen).2 ⟨b, hb', hbne⟩
      · rw [hfl, if_pos hlen]
        constructor
        · intro hall
          exact absurd (hall (rustTrim line) (List.mem_cons_self _ _)) hlen
        · intro _
          exact ⟨(rustTrim line).length, hlen, rfl⟩

theorem fromLinesAux_zero : ∀ (lines bcs : List Seq),
    (acceptedLines lines = [] → fromLinesAux lines bcs 0 = Except.ok ⟨bcs, 0⟩)
    ∧ (∀ b₀ rest', acceptedLines lines = b₀ :: rest' →
        ((∀ b ∈ rest', b.length = b₀.length) →
          fromLinesAux lines bcs 0 =
            Except.ok ⟨rest'.foldl sinsert (sinsert bcs b₀), b₀.length⟩)
        ∧ ((∃ b ∈ rest', b.length ≠ b₀.length) →
          ∃ g, g ≠ b₀.length ∧
            fromLinesAux lines bcs 0 =
              Except.error (WlError.inconsistentLength b₀.length g))) := by
  intro lines
  induction lines with
  | nil =>
    intro bcs
    constructor
    · intro _
      simp [fromLinesAux]
    · intro b₀ rest' h
      rw [acceptedLines_nil] at h
      exact absurd h (by simp)
  | cons line rest ih =>
    intro bcs
    by_cases hskip : (rustTrim line).isEmpty = true ∨ (rustTrim line).head? = some '#'
    · have hfl : fromLinesAux (line :: rest) bcs 0 = fromLinesAux rest bcs 0 := by
        simp only [fromLinesAux]
        rw [if_pos hskip]
      rw [acceptedLines_cons, if_pos hskip, hfl]
      exact ih bcs
    · have hne : rustTrim line ≠ [] := by
        intro h
        exact hskip (Or.inl (by simp [h]))
      have hlen0 : (rustTrim line).length ≠ 0 := by
        intro h
        exact hne (List.eq_nil_of_length_eq_zero h)
      have hfl : fromLinesAux (line :: rest) bcs 0 =
          fromLinesAux rest (sinsert bcs (rustTrim line)) (rustTrim line).length := by
        simp only [fromLinesAux]
        rw [if_neg hskip]
        simp
      rw [acceptedLines_cons, if_neg hskip]
      constructor
      · intro h
        exact absurd h (by simp)
      · intro b₀ rest' h
        injection h with h1 h2
        subst h1
        subst h2
        rw [hfl]
        exact fromLinesAux_pos rest (sinsert bcs (rustTrim line))
          (rustTrim line).length hlen0

/-- C7: `Whitelist::from_file` trims each line and skips blank lines and
lines starting with `#`; it succeeds exactly when every accepted line has
the length of the first accepted line, and otherwise fails with an error
naming the expected length and a differing observed length; on success
`contains bc` holds iff `bc` is one of the accepted lines (duplicates
coalesced: the stored set is duplicate-free), the stored barcode length is
the first accepted line's length, and an input with no accepted lines
yields the empty whitelist with barcode length 0. -/
theorem c7_whitelist_from_file (lines : List Seq) :
    (acceptedLines lines = [] →
      Whitelist.from_lines lines = Except.ok ⟨[], 0⟩)
    ∧ ((∃ w, Whitelist.from_lines lines = Except.ok w) ↔
        ∀ b ∈ acceptedLines lines,
          b.length = ((acceptedLines lines).headD []).length)
    ∧ (∀ e, Whitelist.from_lines lines = Except.error e →
        ∃ g, g ≠ ((acceptedLines lines).headD []).length ∧
          e = WlError.inconsistentLength
                ((acceptedLines lines).headD []).length g)
    ∧ (∀ w, Whitelist.from_lines lines = Except.ok w →
        (∀ bc, w.contains bc = true ↔ bc ∈ acceptedLines lines)
        ∧ w.barcode_len = ((acceptedLines lines).headD []).length
        ∧ w.barcodes.Nodup) := by
  cases hacc : acceptedLines lines with
  | nil =>
    have hok : Whitelist.from_lines lines = Except.ok ⟨[], 0⟩ :=
      (fromLinesAux_zero lines []).1 hacc
    refine ⟨fun _ => hok, ⟨fun _ => by simp, fun _ => ⟨_, hok⟩⟩, ?_, ?_⟩
    · intro e he
      rw [hok] at he
      exact absurd he (by simp)
    · intro w hw
      rw [hok] at hw
      injection hw with hw
      subst hw
      refine ⟨fun bc => ?_, by simp, List.nodup_nil⟩
      simp [Whitelist.contains]
  | cons b₀ rest' =>
    have hmain := (fromLinesAux_zero lines []).2 b₀ rest' hacc
    by_cases hall : ∀ b ∈ rest', b.length = b₀.length
    · have hok : Whitelist.from_lines lines =
          Except.ok ⟨rest'.foldl sinsert (sinsert [] b₀), b₀.length⟩ :=
        hmain.1 hall
      refine ⟨fun h => absurd h (by simp), ?_, ?_, ?_⟩
      · constructor
        · intro _ b hb
          rcases List.mem_cons.mp hb with rfl | hb'
          · simp
          · simpa using hall b hb'
        · intro _
          exact ⟨_, hok⟩
      · intro e he
        rw [hok] at he
        exact absurd he (by simp)
      · intro w hw
        rw [hok] at hw
        injection hw with hw
        subst hw
        refine ⟨fun bc => ?_, by simp, ?_⟩
        · have hsi : sinsert [] b₀ = [b₀] := by
            simp [sinsert]
          simp only [Whitelist.contains, decide_eq_true_eq, hsi,
            mem_foldl_sinsert, List.mem_singleton, List.mem_cons]
          tauto
        · exact foldl_sinsert_nodup rest' (sinsert [] b₀)
            (by simp [sinsert])
    · have hex : ∃ b ∈ rest', b.length ≠ b₀.length := by
        push_neg at hall
        exact hall
      rcases hmain.2 hex with ⟨g, hg, herr0⟩
      have herr : Whitelist.from_lines lines =
          Except.error (WlError.inconsistentLength b₀.length g) := herr0
      refine ⟨fun h => absurd h (by simp), ?_, ?_, ?_⟩
      · constructor
        · rintro ⟨w, hw⟩
          rw [herr] at hw
          exact absurd hw (by simp)
        · intro hl
          rcases hex with ⟨b, hb, hbne⟩
          exact absurd (by simpa using hl b (List.mem_cons_of_mem _ hb)) hbne
      · intro e he
        rw [herr] at he
        injection he with he
        subst he
        exact ⟨g, by simpa using hg, by simp⟩
      · intro w hw
        rw [herr] at hw
        exact absurd hw (by simp)

/-- Witness for C7: a concrete four-line file (a padded line, a comment, a
blank line, a trailing-space line) produces a whitelist containing the
trimmed line `GT`. -/
theorem c7_whitelist_from_file_witness :
    (Whitelist.mk [['A', 'C'], ['G', 'T']] 2).contains ['G', 'T'] = true :=
  (((c7_whitelist_from_file
        [[' ', 'A', 'C'], ['#', 'z'], [], ['G', 'T', ' ']]).2.2.2
      ⟨[['A', 'C'], ['G', 'T']], 2⟩ (by rfl)).1 ['G', 'T']).2 (by decide)

/-! ### Protocol extraction (C8) -/

/-- C8, amended: for read structures whose UMI window lies inside the
length-checked prefix (`umi_start ≤ barcode_start + barcode_len`, true of
the v2/v3 presets) and quality strings as long as the read, `extract_r1`
returns the structural error exactly when the read is shorter than
`barcode_start + barcode_len + umi_len`, and otherwise `Ok` with the four
documented slices; no panic (`none`) occurs. -/
theorem c8_extract_r1 (rs : ReadStructure) (seq qual : List Nat)
    (humi : rs.umi_start ≤ rs.barcode_start + rs.barcode_len)
    (hq : qual.length = seq.length) :
    (seq.length < rs.barcode_start + rs.barcode_len + rs.umi_len →
      extract_r1 rs seq qual =
        some (Except.error (RsError.protocol seq.length
          (rs.barcode_start + rs.barcode_len + rs.umi_len))))
    ∧ (rs.barcode_start + rs.barcode_len + rs.umi_len ≤ seq.length →
      extract_r1 rs seq qual = some (Except.ok
        { barcode := (seq.drop rs.barcode_start).take rs.barcode_len
          umi := (seq.drop rs.umi_start).take rs.umi_len
          cdna := []
          barcode_qual := (qual.drop rs.barcode_start).take rs.barcode_len
          umi_qual := (qual.drop rs.umi_start).take rs.umi_len
          cdna_qual := [] })) := by
  constructor
  · intro hlt
    simp only [extract_r1]
    rw [if_pos hlt]
  · intro hge
    have h1 : rs.barcode_start ≤ rs.barcode_start + rs.barcode_len :=
      Nat.le_add_right _ _
    have h2 : rs.barcode_start + rs.barcode_len ≤ seq.length := by omega
    have h2q : rs.barcode_start + rs.barcode_len ≤ qual.length := by omega
    have h3 : rs.umi_start ≤ rs.umi_start + rs.umi_len :=
      Nat.le_add_right _ _
    have h4 : rs.umi_start + rs.umi_len ≤ seq.length := by omega
    have h4q : rs.umi_start + rs.umi_len ≤ qual.length := by omega
    have hb : rustSlice seq rs.barcode_start (rs.barcode_start + rs.barcode_len)
        = some ((seq.drop rs.barcode_start).take rs.barcode_len) := by
      rw [rustSlice, if_pos ⟨h1, h2⟩, Nat.add_sub_cancel_left]
    have hu : rustSlice seq rs.umi_start (rs.umi_start + rs.umi_len)
        = some ((seq.drop rs.umi_start).take rs.umi_len) := by
      rw [rustSlice, if_pos ⟨h3, h4⟩, Nat.add_sub_cancel_left]
    have hbq : rustSlice qual rs.barcode_start (rs.barcode_start + rs.barcode_len)
        = some ((qual.drop rs.barcode_start).take rs.barcode_len) := by
      rw [rustSlice, if_pos ⟨h1, h2q⟩, Nat.add_sub_cancel_left]
    have huq : rustSlice qual rs.umi_start (rs.umi_start + rs.umi_len)
        = some ((qual.drop rs.umi_start).take rs.umi_len) := by
      rw [rustSlice, if_pos ⟨h3, h4q⟩, Nat.add_sub_cancel_left]
    simp only [extract_r1]
    rw [if_neg (by omega), hb, hu, hbq, huq]

/-- Witness for C8: scenario S6, a 16-base read under the 10x 3-prime v3
structure (28 required) yields the structural error. -/
theorem c8_extract_r1_witness :
    extract_r1 ReadStructure.tenx_3prime_v3
        (List.replicate 16 65) (List.replicate 16 73)
      = some (Except.error (RsError.protocol 16 28)) := by
  have h := (c8_extract_r1 ReadStructure.tenx_3prime_v3 (List.replicate 16 65)
    (List.replicate 16 73) (by decide) (by decide)).1 (by decide)
  simpa using h

/-- Counterexample to C8 as stated: a custom read structure whose UMI
window `[20, 32)` extends past the checked minimum length 28.  A 28-byte
read passes the length check, then the slice `seq[20..32]` panics
(modelled `none`) instead of returning the promised `Ok`. -/
theorem c8_counterexample :
    extract_r1 (ReadStructure.new 0 16 20 12 0)
      (List.replicate 28 65) (List.replicate 28 73) = none := by
  rfl

/-! ### QC medians (C9) -/

theorem insertionSortBy_nat_eq (l s : List Nat) (hp : s.Perm l)
    (hs : s.Sorted (· ≤ ·)) :
    insertionSortBy (fun a b => decide (a ≤ b)) l = s := by
  have hperm := insertionSortBy_perm (fun a b : Nat => decide (a ≤ b)) l
  have hpw := insertionSortBy_pairwise (fun a b : Nat => decide (a ≤ b))
    (fun a b => by
      rcases Nat.le_total a b with h | h
      · simp [h]
      · simp [h])
    (fun a b c hab hbc => by
      simp only [decide_eq_true_eq] at hab hbc ⊢
      omega) l
  have hsorted : (insertionSortBy (fun a b : Nat => decide (a ≤ b)) l).Sorted
      (fun a b => a ≤ b) :=
    hpw.imp (fun h => by simpa using h)
  exact List.eq_of_perm_of_sorted (hperm.trans hp.symm) hsorted hs

/-- C9: each median field of `update_from_cells` equals the element at
index `n / 2` of the ascending-sorted copy of the corresponding non-empty
vector (the upper median for even `n`, never interpolated); stated for any
sorted permutation of the input, which is unique.  The selected value is
the one the code then casts to `f64`. -/
theorem c9_qc_medians (m : QcMetrics) (reads genes umis sr sg su : List Nat)
    (hrp : sr.Perm reads) (hrs : sr.Sorted (· ≤ ·))
    (hgp : sg.Perm genes) (hgs : sg.Sorted (· ≤ ·))
    (hup : su.Perm umis) (hus : su.Sorted (· ≤ ·)) :
    (reads ≠ [] →
      (QcMetrics.update_from_cells m reads genes umis).median_reads_per_cell
        = sr.getD (reads.length / 2) 0)
    ∧ (genes ≠ [] →
      (QcMetrics.update_from_cells m reads genes umis).median_genes_per_cell
        = sg.getD (genes.length / 2) 0)
    ∧ (umis ≠ [] →
      (QcMetrics.update_from_cells m reads genes umis).median_umi_per_cell
        = su.getD (umis.length / 2) 0) := by
  have hr' := insertionSortBy_nat_eq reads sr hrp hrs
  have hg' := insertionSortBy_nat_eq genes sg hgp hgs
  have hu' := insertionSortBy_nat_eq umis su hup hus
  have hlr : sr.length = reads.length := hrp.length_eq
  have hlg : sg.length = genes.length := hgp.length_eq
  have hlu : su.length = umis.length := hup.length_eq
  refine ⟨?_, ?_, ?_⟩
  · intro hne
    have hre : reads.isEmpty = false := by
      cases reads with
      | nil => exact absurd rfl hne
      | cons a l => rfl
    simp [QcMetrics.update_from_cells, hre, hr', hlr,
      apply_ite QcMetrics.median_reads_per_cell]
  · intro hne
    have hge : genes.isEmpty = false := by
      cases genes with
      | nil => exact absurd rfl hne
      | cons a l => rfl
    simp [QcMetrics.update_from_cells, hge, hg', hlg,
      apply_ite QcMetrics.median_genes_per_cell]
  · intro hne
    have hue : umis.isEmpty = false := by
      cases umis with
      | nil => exact absurd rfl hne
      | cons a l => rfl
    simp [QcMetrics.update_from_cells, hue, hu', hlu,
      apply_ite QcMetrics.median_umi_per_cell]

/-- Witness for C9 on concrete vectors: medians 2, 5 and 7. -/
theorem c9_qc_medians_witness :
    (QcMetrics.update_from_cells QcMetrics.new [3, 1, 2] [5, 4] [7]).median_reads_per_cell = 2
    ∧ (QcMetrics.update_from_cells QcMetrics.new [3, 1, 2] [5, 4] [7]).median_genes_per_cell = 5
    ∧ (QcMetrics.update_from_cells QcMetrics.new [3, 1, 2] [5, 4] [7]).median_umi_per_cell = 7 := by
  have h := c9_qc_medians QcMetrics.new [3, 1, 2] [5, 4] [7] [1, 2, 3] [4, 5] [7]
    (by decide) (by decide) (by decide) (by decide) (by decide) (by decide)
  refine ⟨?_, ?_, ?_⟩
  · simpa using h.1 (by decide)
  · simpa using h.2.1 (by decide)
  · simpa using h.2.2 (by decide)

/-! ### Barcode corrector: the one-mismatch index (C2) -/

theorem pushAll_append (ix : List (Seq × List Seq)) (ps qs : List (Seq × Seq)) :
    pushAll ix (ps ++ qs) = pushAll (pushAll ix ps) qs := by
  simp [pushAll, List.foldl_append]

theorem mismatch_inner_eq (barcode : Seq) (i : Nat) :
    ∀ (bs : List Char) (ix : List (Seq × List Seq)),
    bs.foldl (fun index base =>
        if barcode.getD i ' ' ≠ base then
          upsert (barcode.set i base) (fun l => l ++ [barcode]) [] index
        else index) ix
      = pushAll ix (bs.filterMap (fun base =>
          if barcode.getD i ' ' ≠ base then some (barcode.set i base, barcode)
          else none)) := by
  intro bs
  induction bs with
  | nil => intro ix; simp [pushAll]
  | cons b bs ih =>
    intro ix
    by_cases h : barcode.getD i ' ' ≠ b
    · simp only [List.foldl_cons, List.filterMap_cons, if_pos h, ih]
      rfl
    · simp only [List.foldl_cons, List.filterMap_cons, if_neg h, ih]

theorem mismatch_range_eq (barcode : Seq) :
    ∀ (idxs : List Nat) (ix : List (Seq × List Seq)),
    idxs.foldl (fun index i =>
        baseChars.foldl (fun index base =>
          if barcode.getD i ' ' ≠ base then
            upsert (barcode.set i base) (fun l => l ++ [barcode]) [] index
          else index) index) ix
      = pushAll ix (idxs.flatMap (fun i =>
          baseChars.filterMap (fun base =>
            if barcode.getD i ' ' ≠ base then some (barcode.set i base, barcode)
            else none))) := by
  intro idxs
  induction idxs with
  | nil => intro ix; simp [pushAll]
  | cons i idxs ih =>
    intro ix
    rw [List.foldl_cons, List.flatMap_cons, pushAll_append,
      mismatch_inner_eq barcode i baseChars ix, ih]

theorem build_eq_pushAll (wl : Whitelist) :
    build_mismatch_index wl = pushAll [] (allPushes wl) := by
  rw [build_mismatch_index, allPushes]
  generalize ([] : List (Seq × List Seq)) = ix
  induction wl.barcodes generalizing ix with
  | nil => simp [pushAll]
  | cons w ws ih =>
    rw [List.foldl_cons, List.flatMap_cons, pushAll_append]
    rw [show variantPushes w = (List.range w.length).flatMap (fun i =>
        baseChars.filterMap (fun base =>
          if w.getD i ' ' ≠ base then some (w.set i base, w) else none))
      from rfl]
    rw [mismatch_range_eq w (List.range w.length) ix]
    exact ih _

theorem collect_cons (k : Seq) (p : Seq × Seq) (ps : List (Seq × Seq)) :
    collect k (p :: ps) =
      if p.1 = k then p.2 :: collect k ps else collect k ps := by
  by_cases h : p.1 = k
  · simp [collect, List.filter_cons, h]
  · simp [collect, List.filter_cons, h]

theorem alookup_pushAll : ∀ (ps : List (Seq × Seq)) (ix : List (Seq × List Seq))
    (k : Seq),
    alookup k (pushAll ix ps) =
      match alookup k ix with
      | some l => some (l ++ collect k ps)
      | none => if collect k ps = [] then none else some (collect k ps) := by
  intro ps
  induction ps with
  | nil =>
    intro ix k
    cases h : alookup k ix with
    | some l => simp [pushAll, h, collect]
    | none => simp [pushAll, h, collect]
  | cons p ps ih =>
    intro ix k
    have hstep : pushAll ix (p :: ps) =
        pushAll (upsert p.1 (fun l => l ++ [p.2]) [] ix) ps := rfl
    rw [hstep, ih, collect_cons]
    by_cases hpk : p.1 = k
    · subst hpk
      rw [alookup_upsert_self]
      cases h : alookup p.1 ix with
      | some l => simp [h]
      | none => simp [h]
    · rw [alookup_upsert_other (fun hh => hpk hh.symm), if_neg hpk]

theorem alookup_build (wl : Whitelist) (bc : Seq) :
    alookup bc (build_mismatch_index wl) =
      if collect bc (allPushes wl) = [] then none
      else some (collect bc (allPushes wl)) := by
  rw [build_eq_pushAll, alookup_pushAll]
  rfl

theorem mem_collect (k w : Seq) : ∀ ps : List (Seq × Seq),
    w ∈ collect k ps ↔ (k, w) ∈ ps := by
  intro ps
  induction ps with
  | nil => simp [collect]
  | cons p ps ih =>
    rw [collect_cons]
    by_cases h : p.1 = k
    · subst h
      rw [if_pos rfl]
      simp only [List.mem_cons, ih]
      constructor
      · rintro (rfl | hm)
        · exact Or.inl (Prod.ext rfl rfl)
        · exact Or.inr hm
      · rintro (heq | hm)
        · exact Or.inl (congrArg Prod.snd heq)
        · exact Or.inr hm
    · rw [if_neg h, ih]
      constructor
      · exact fun hm => List.mem_cons_of_mem _ hm
      · intro hm
        rcases List.mem_cons.mp hm with heq | hm'
        · exact absurd (congrArg Prod.fst heq).symm h
        · exact hm'

theorem mem_variantPushes (w : Seq) (p : Seq × Seq) :
    p ∈ variantPushes w ↔
      p.2 = w ∧ ∃ i, i < w.length ∧ ∃ b, b ∈ baseChars ∧
        w.getD i ' ' ≠ b ∧ p.1 = w.set i b := by
  rcases p with ⟨p1, p2⟩
  simp only [variantPushes, List.mem_flatMap, List.mem_range, List.mem_filterMap]
  constructor
  · rintro ⟨i, hi, b, hb, hsome⟩
    by_cases h : w.getD i ' ' ≠ b
    · rw [if_pos h] at hsome
      injection hsome with hs
      injection hs with hs1 hs2
      exact ⟨hs2.symm, i, hi, b, hb, h, hs1.symm⟩
    · rw [if_neg h] at hsome
      exact absurd hsome (by simp)
  · rintro ⟨hp2, i, hi, b, hb, hne, hp1⟩
    refine ⟨i, hi, b, hb, ?_⟩
    rw [if_pos hne, hp1, hp2]

theorem mem_collect_allPushes (wl : Whitelist) (bc w : Seq) :
    w ∈ collect bc (allPushes wl) ↔ w ∈ wl.barcodes ∧ generates w bc := by
  rw [mem_collect]
  simp only [allPushes, List.mem_flatMap]
  constructor
  · rintro ⟨w', hw', hp⟩
    rcases (mem_variantPushes w' (bc, w)).mp hp with ⟨h2, i, hi, b, hb, hne, h1⟩
    simp only at h2 h1
    subst h2
    exact ⟨hw', i, hi, b, hb, hne, h1⟩
  · rintro ⟨hw, i, hi, b, hb, hne, hbc⟩
    exact ⟨w, hw, (mem_variantPushes w (bc, w)).mpr ⟨rfl, i, hi, b, hb, hne, hbc⟩⟩

theorem zip_self_filter_ne {α : Type} [DecidableEq α] (l : List α) :
    (l.zip l).filter (fun p => p.1 ≠ p.2) = [] := by
  rw [List.filter_eq_nil_iff]
  intro p hp
  simp [mem_zip_self l p hp]

theorem hamming_set_one (w : Seq) : ∀ (i : Nat) (b : Char), i < w.length →
    w.getD i ' ' ≠ b → hamming_distance (w.set i b) w = 1 := by
  induction w with
  | nil =>
    intro i b hi _
    simp at hi
  | cons c t ih =>
    intro i b hi hne
    cases i with
    | zero =>
      have hset : (c :: t).set 0 b = b :: t := rfl
      rw [hset, hamming_distance, if_neg (by simp)]
      have hbc : ¬ (b = c) := fun h => hne (by simp [h])
      simp only [List.zip_cons_cons, List.filter_cons]
      simp [hbc]
      intro a b hab
      exact mem_zip_self t (a, b) hab
    | succ i =>
      have hset : (c :: t).set (i + 1) b = c :: t.set i b := rfl
      rw [hset, hamming_distance, if_neg (by simp)]
      have hlen : i < t.length := by simpa using hi
      have hne' : t.getD i ' ' ≠ b := by simpa using hne
      have ihv := ih i b hlen hne'
      rw [hamming_distance, if_neg (by simp)] at ihv
      simpa [List.filter_cons] using ihv

theorem hamming_one_decomp : ∀ (a w : Seq), hamming_distance a w = 1 →
    a.length = w.length ∧ ∃ i, i < w.length ∧ a.getD i ' ' ≠ w.getD i ' ' ∧
      a = w.set i (a.getD i ' ') := by
  intro a
  induction a with
  | nil =>
    intro w h
    cases w with
    | nil =>
      rw [hamming_distance, if_neg (by simp)] at h
      simp at h
    | cons c t =>
      rw [hamming_distance, if_pos (by simp)] at h
      exact absurd h (by norm_num [U32])
  | cons x xs ih =>
    intro w h
    cases w with
    | nil =>
      rw [hamming_distance, if_pos (by simp)] at h
      exact absurd h (by norm_num [U32])
    | cons y ys =>
      by_cases hlen : xs.length = ys.length
      case neg =>
        rw [hamming_distance, if_pos (by simpa using hlen)] at h
        exact absurd h (by norm_num [U32])
      case pos =>
      rw [hamming_distance, if_neg (by simpa using hlen)] at h
      rw [List.zip_cons_cons, List.filter_cons] at h
      by_cases hxy : x = y
      · subst hxy
        simp at h
        have hh : hamming_distance xs ys = 1 := by
          rw [hamming_distance, if_neg (by omega)]
          simpa using h
        rcases ih ys hh with ⟨hl, i, hi, hne, heq⟩
        refine ⟨by simp [hl], i + 1, by simpa using Nat.succ_lt_succ hi,
          by simpa using hne, ?_⟩
        have hs : (x :: ys).set (i + 1) ((x :: xs).getD (i + 1) ' ')
            = x :: ys.set i (xs.getD i ' ') := rfl
        rw [hs, ← heq]
      · have hd : (decide ¬(x = y)) = true := by simpa using hxy
        simp [hxy] at h
        have htail : (xs.zip ys).filter (fun p => p.1 ≠ p.2) = [] := by
          have h0 : ((xs.zip ys).filter (fun p => p.1 ≠ p.2)).length = 0 := by
            simpa using h
          exact List.eq_nil_of_length_eq_zero h0
        have hxs : xs = ys := by
          apply eq_of_zip_eq xs ys hlen
          intro p hp
          by_contra hpe
          have hmem : p ∈ (xs.zip ys).filter (fun p => p.1 ≠ p.2) :=
            List.mem_filter.mpr ⟨hp, by simpa using hpe⟩
          rw [htail] at hmem
          simp at hmem
        subst hxs
        exact ⟨by simp, 0, by simp, by simpa using hxy, rfl⟩

theorem generates_hamming_one (w bc : Seq) (hg : generates w bc) :
    hamming_distance bc w = 1 := by
  rcases hg with ⟨i, hi, b, _, hne, rfl⟩
  exact hamming_set_one w i b hi hne

theorem generates_of_hamming_one (w bc : Seq)
    (hbase : ∀ c ∈ bc, c ∈ baseChars) (h1 : hamming_distance bc w = 1) :
    generates w bc := by
  rcases hamming_one_decomp bc w h1 with ⟨hlen, i, hi, hne, heq⟩
  refine ⟨i, hi, bc.getD i ' ', ?_, Ne.symm hne, heq⟩
  have hib : i < bc.length := by omega
  rw [List.getD_eq_getElem bc ' ' hib]
  exact hbase _ (List.getElem_mem hib)

theorem chars_of_generates (w bc : Seq) (hw : ∀ c ∈ w, c ∈ baseChars)
    (hg : generates w bc) : ∀ c ∈ bc, c ∈ baseChars := by
  rcases hg with ⟨i, hi, b, hb, _, rfl⟩
  intro c hc
  rcases List.mem_or_eq_of_mem_set hc with h | rfl
  · exact hw c h
  · exact hb

theorem two_le_length_of_mem {α : Type} {a b : α} {l : List α}
    (ha : a ∈ l) (hb : b ∈ l) (hne : a ≠ b) : 2 ≤ l.length := by
  cases l with
  | nil => simp at ha
  | cons x t =>
    cases t with
    | nil =>
      simp at ha hb
      exact absurd (ha.trans hb.symm) hne
    | cons y u =>
      simp only [List.length_cons]
      omega

theorem bruteStep_none (dmax : Nat) (bc : Seq) (st : Option (Seq × Nat) × Bool)
    (x : Seq) (hle : hamming_distance bc x ≤ dmax) (hnone : st.1 = none) :
    bruteStep dmax bc st x = (some (x, hamming_distance bc x), st.2) := by
  rcases st with ⟨s1, s2⟩
  simp only at hnone
  subst hnone
  simp only [bruteStep]
  rw [if_pos hle]

theorem bruteStep_some (dmax : Nat) (bc : Seq) (st : Option (Seq × Nat) × Bool)
    (x w : Seq) (b : Nat) (hsome : st.1 = some (w, b)) :
    bruteStep dmax bc st x =
      if hamming_distance bc x ≤ dmax then
        if hamming_distance bc x < b then (some (x, hamming_distance bc x), false)
        else if hamming_distance bc x = b then (st.1, true)
        else st
      else st := by
  rcases st with ⟨s1, s2⟩
  simp only at hsome
  subst hsome
  simp only [bruteStep]

theorem bruteStep_skip (dmax : Nat) (bc : Seq) (st : Option (Seq × Nat) × Bool)
    (x : Seq) (hle : ¬ hamming_distance bc x ≤ dmax) :
    bruteStep dmax bc st x = st := by
  simp only [bruteStep]
  rw [if_neg hle]

theorem bruteFold_at_min (dmax : Nat) (bc : Seq) (m : Nat) (hm : m ≤ dmax) :
    ∀ (l : List Seq) (w : Seq) (amb : Bool),
    (∀ x ∈ l, m ≤ hamming_distance bc x) →
    l.foldl (bruteStep dmax bc) (some (w, m), amb)
      = (some (w, m),
          amb || l.any (fun x => decide (hamming_distance bc x = m))) := by
  intro l
  induction l with
  | nil =>
    intro w amb _
    simp
  | cons x t ih =>
    intro w amb hall
    have hx : m ≤ hamming_distance bc x := hall x (List.mem_cons_self _ _)
    have ht : ∀ y ∈ t, m ≤ hamming_distance bc y :=
      fun y hy => hall y (List.mem_cons_of_mem _ hy)
    rw [List.foldl_cons]
    by_cases hle : hamming_distance bc x ≤ dmax
    · by_cases heq : hamming_distance bc x = m
      · have hstep : bruteStep dmax bc (some (w, m), amb) x = (some (w, m), true) := by
          simp only [bruteStep]
          rw [if_pos hle, if_neg (by omega), if_pos heq]
        rw [hstep, ih w true ht]
        simp [List.any_cons, heq]
      · have hstep : bruteStep dmax bc (some (w, m), amb) x = (some (w, m), amb) := by
          simp only [bruteStep]
          rw [if_pos hle, if_neg (by omega), if_neg heq]
        rw [hstep, ih w amb ht]
        simp [List.any_cons, heq]
    · have heq : ¬ (hamming_distance bc x = m) := by omega
      have hstep : bruteStep dmax bc (some (w, m), amb) x = (some (w, m), amb) := by
        simp only [bruteStep]
        rw [if_neg hle]
      rw [hstep, ih w amb ht]
      simp [List.any_cons, heq]

theorem bruteFold_ambiguous (dmax : Nat) (bc : Seq) (m : Nat) (hm : m ≤ dmax) :
    ∀ (l : List Seq) (st : Option (Seq × Nat) × Bool),
    (∀ x ∈ l, m ≤ hamming_distance bc x) →
    (st.1 = none ∨ ∃ w b, st.1 = some (w, b) ∧ m ≤ b) →
    2 ≤ (l.filter (fun x => decide (hamming_distance bc x = m))).length →
    (l.foldl (bruteStep dmax bc) st).2 = true := by
  intro l
  induction l with
  | nil =>
    intro st _ _ h2
    simp at h2
  | cons x t ih =>
    intro st hall hinv h2
    have hx : m ≤ hamming_distance bc x := hall x (List.mem_cons_self _ _)
    have hallt : ∀ y ∈ t, m ≤ hamming_distance bc y :=
      fun y hy => hall y (List.mem_cons_of_mem _ hy)
    rw [List.foldl_cons]
    by_cases heq : hamming_distance bc x = m
    · have hle : hamming_distance bc x ≤ dmax := by omega
      have hcount : 1 ≤ (t.filter (fun y => decide (hamming_distance bc y = m))).length := by
        rw [List.filter_cons] at h2
        simp only [heq, decide_eq_true_eq, if_pos] at h2
        simp only [List.length_cons] at h2
        omega
      have hany : t.any (fun y => decide (hamming_distance bc y = m)) = true := by
        rcases List.exists_mem_of_length_pos hcount with ⟨y, hy⟩
        exact List.any_eq_true.mpr
          ⟨y, (List.mem_filter.mp hy).1, (List.mem_filter.mp hy).2⟩
      rcases hinv with hnone | ⟨w, b, hsome, hmb⟩
      · have hstep : bruteStep dmax bc st x
            = (some (x, hamming_distance bc x), st.2) :=
          bruteStep_none dmax bc st x hle hnone
        rw [hstep, heq, bruteFold_at_min dmax bc m hm t x st.2 hallt]
        simp [hany]
      · by_cases hlt : m < b
        · have hstep : bruteStep dmax bc st x
              = (some (x, hamming_distance bc x), false) := by
            rw [bruteStep_some dmax bc st x w b hsome, if_pos hle,
              if_pos (by omega)]
          rw [hstep, heq, bruteFold_at_min dmax bc m hm t x false hallt]
          simp [hany]
        · have hbm : b = m := by omega
          have hstep : bruteStep dmax bc st x = (st.1, true) := by
            rw [bruteStep_some dmax bc st x w b hsome, if_pos hle,
              if_neg (by omega), if_pos (by omega)]
          rw [hstep, hsome, hbm, bruteFold_at_min dmax bc m hm t w true hallt]
          simp
    · have hcount : 2 ≤ (t.filter (fun y => decide (hamming_distance bc y = m))).length := by
        rw [List.filter_cons] at h2
        simp only [heq, decide_eq_true_eq, if_neg, if_false] at h2
        exact h2
      by_cases hle : hamming_distance bc x ≤ dmax
      · rcases hinv with hnone | ⟨w, b, hsome, hmb⟩
        · have hstep : bruteStep dmax bc st x
              = (some (x, hamming_distance bc x), st.2) :=
            bruteStep_none dmax bc st x hle hnone
          rw [hstep]
          exact ih _ hallt (Or.inr ⟨x, _, rfl, hx⟩) hcount
        · by_cases hlt : hamming_distance bc x < b
          · have hstep : bruteStep dmax bc st x
                = (some (x, hamming_distance bc x), false) := by
              rw [bruteStep_some dmax bc st x w b hsome, if_pos hle, if_pos hlt]
            rw [hstep]
            exact ih _ hallt (Or.inr ⟨x, _, rfl, hx⟩) hcount
          · by_cases heqb : hamming_distance bc x = b
            · have hstep : bruteStep dmax bc st x = (st.1, true) := by
                rw [bruteStep_some dmax bc st x w b hsome, if_pos hle,
                  if_neg hlt, if_pos heqb]
              rw [hstep, hsome]
              exact ih _ hallt (Or.inr ⟨w, b, rfl, hmb⟩) hcount
            · have hstep : bruteStep dmax bc st x = st := by
                rw [bruteStep_some dmax bc st x w b hsome, if_pos hle,
                  if_neg hlt, if_neg heqb]
              rw [hstep]
              exact ih st hallt (Or.inr ⟨w, b, hsome, hmb⟩) hcount
      · rw [bruteStep_skip dmax bc st x hle]
        exact ih st hallt hinv hcount

/-- C2: for every whitelist over the base alphabet `{A,C,G,T,N}` (the
data-model invariant for barcodes), every max distance, and every observed
barcode `bc` outside the whitelist, if two distinct whitelist entries tie
at the minimum Hamming distance `m ≤ max_distance` from `bc`, then
`match_barcode bc` returns `NoMatch`. -/
theorem c2_ambiguity_nomatch (wl : Whitelist) (dmax : Nat) (bc w1 w2 : Seq)
    (m : Nat)
    (halpha : ∀ w ∈ wl.barcodes, ∀ c ∈ w, c ∈ baseChars)
    (hbc : bc ∉ wl.barcodes)
    (hw1 : w1 ∈ wl.barcodes) (hw2 : w2 ∈ wl.barcodes) (hne : w1 ≠ w2)
    (hd1 : hamming_distance bc w1 = m) (hd2 : hamming_distance bc w2 = m)
    (hmle : m ≤ dmax)
    (hmin : ∀ w ∈ wl.barcodes, m ≤ hamming_distance bc w) :
    (BarcodeCorrector.new wl dmax).match_barcode bc = BarcodeMatch.NoMatch bc := by
  have hm1 : 1 ≤ m := by
    rcases Nat.eq_zero_or_pos m with h0 | h
    · exfalso
      rw [h0] at hd1
      exact hbc ((hamming_distance_eq_zero_iff bc w1).mp hd1 ▸ hw1)
    · exact h
  have hd0 : ¬ (dmax = 0) := by omega
  have hidx : (BarcodeCorrector.new wl dmax).mismatch_index
      = build_mismatch_index wl := by
    simp only [BarcodeCorrector.new]
    rw [if_pos (by omega)]
  have hwl : (BarcodeCorrector.new wl dmax).whitelist = wl := rfl
  have hmd : (BarcodeCorrector.new wl dmax).max_distance = dmax := rfl
  simp only [BarcodeCorrector.match_barcode, hwl, hmd, hidx]
  rw [if_neg hbc, if_neg hd0]
  by_cases hcol : collect bc (allPushes wl) = []
  · have halk : alookup bc (build_mismatch_index wl) = none := by
      rw [alookup_build, if_pos hcol]
    rw [halk]
    by_cases hdm : 1 < dmax
    · rw [if_pos hdm]
      have h2 : 2 ≤ (wl.barcodes.filter
          (fun x => decide (hamming_distance bc x = m))).length :=
        two_le_length_of_mem
          (List.mem_filter.mpr ⟨hw1, by simp [hd1]⟩)
          (List.mem_filter.mpr ⟨hw2, by simp [hd2]⟩) hne
      have hamb : (wl.barcodes.foldl (bruteStep dmax bc) (none, false)).2 = true :=
        bruteFold_ambiguous dmax bc m hmle wl.barcodes (none, false) hmin
          (Or.inl rfl) h2
      rcases hr : (wl.barcodes.foldl (bruteStep dmax bc) (none, false)).1
        with _ | ⟨cor, d⟩
      · rfl
      · rw [hamb]
        rfl
    · rw [if_neg hdm]
  · have halk : alookup bc (build_mismatch_index wl)
        = some (collect bc (allPushes wl)) := by
      rw [alookup_build, if_neg hcol]
    rw [halk]
    have hex : ∃ w₀, w₀ ∈ collect bc (allPushes wl) := by
      cases hc : collect bc (allPushes wl) with
      | nil => exact absurd hc hcol
      | cons a t => exact ⟨a, List.mem_cons_self _ _⟩
    rcases hex with ⟨w₀, hw₀⟩
    have h₀ := (mem_collect_allPushes wl bc w₀).mp hw₀
    have hham₀ : hamming_distance bc w₀ = 1 := generates_hamming_one w₀ bc h₀.2
    have hmeq : m = 1 := by
      have := hmin w₀ h₀.1
      omega
    have hbases : ∀ c ∈ bc, c ∈ baseChars :=
      chars_of_generates w₀ bc (halpha w₀ h₀.1) h₀.2
    have hin1 : w1 ∈ collect bc (allPushes wl) :=
      (mem_collect_allPushes wl bc w1).mpr
        ⟨hw1, generates_of_hamming_one w1 bc hbases (by rw [hd1, hmeq])⟩
    have hin2 : w2 ∈ collect bc (allPushes wl) :=
      (mem_collect_allPushes wl bc w2).mpr
        ⟨hw2, generates_of_hamming_one w2 bc hbases (by rw [hd2, hmeq])⟩
    have hlen2 : 2 ≤ (collect bc (allPushes wl)).length :=
      two_le_length_of_mem hin1 hin2 hne
    show (if (collect bc (allPushes wl)).length = 1 then
        BarcodeMatch.Corrected bc ((collect bc (allPushes wl)).headD []) 1
      else BarcodeMatch.NoMatch bc) = BarcodeMatch.NoMatch bc
    rw [if_neg (by omega)]

/-- Witness for C2: scenario S2, whitelist `{AAAA, AAAC}` with max
distance 1; the observed barcode `AAAG` sits at distance 1 from both
entries and is rejected. -/
theorem c2_ambiguity_nomatch_witness :
    (BarcodeCorrector.new ⟨[['A','A','A','A'], ['A','A','A','C']], 4⟩ 1).match_barcode
        ['A','A','A','G'] = BarcodeMatch.NoMatch ['A','A','A','G'] :=
  c2_ambiguity_nomatch ⟨[['A','A','A','A'], ['A','A','A','C']], 4⟩ 1
    ['A','A','A','G'] ['A','A','A','A'] ['A','A','A','C'] 1
    (by decide) (by decide) (by decide) (by decide) (by decide)
    (by decide) (by decide) (by decide) (by decide)

end Sparc
